import Mathlib

/-!
Verification of the MintMemo note repository (mintmemo/repo.py, mintmemo/db.py).

The Python/SQLite core is shallowly embedded:
* text is modelled as `List Char` (Python `str` is a sequence of code points;
  SQLite compares TEXT bytewise on UTF-8, which agrees with code-point order);
* the database is a record of tables modelled as lists of rows;
* the FTS synchronization triggers of SCHEMA_SQL are folded into the embedded
  table operations, exactly as SQLite fires them inside the same transaction;
* statements that can fail (the foreign-key check on note_tags inserts, with
  PRAGMA foreign_keys = ON) return `Except`;
* the scoped connection of db.connect (commit on success, rollback on any
  exception) is `scopedExec`.

Unicode case mapping is modelled on the basic-latin range (Char.toLower), and
Python str.strip on the ASCII whitespace characters; all string literals in
the repository and its tests are in this fragment.
-/

set_option maxHeartbeats 1000000
set_option maxRecDepth 100000

namespace MintMemo

/-- Text: Python strings and SQLite TEXT values as lists of code points. -/
abbrev Str := List Char

/-- Coerce a Lean string literal to the text model. -/
def str (s : String) : Str := s.data

/-- Python str.strip() whitespace set (ASCII fragment). -/
def isPySpace (c : Char) : Bool :=
  c = ' ' ∨ c = '\t' ∨ c = '\n' ∨ c = '\r' ∨ c = '\x0b' ∨ c = '\x0c'

/-- Python s.strip(): drop leading whitespace. -/
def lstrip (s : Str) : Str := s.dropWhile isPySpace

/-- Python s.strip(): drop trailing whitespace. -/
def rstrip (s : Str) : Str := (s.reverse.dropWhile isPySpace).reverse

/-- Python s.strip(). -/
def pyStrip (s : Str) : Str := rstrip (lstrip s)

/-- Python s.lower() (basic-latin fragment: Char.toLower). -/
def pyLower (s : Str) : Str := s.map Char.toLower

/-- Python s.split(sep) for a one-character separator. -/
def splitChar (sep : Char) : Str → List Str
  | [] => [[]]
  | c :: rest =>
    match splitChar sep rest with
    | [] => [[c]]
    | s :: ss => if c = sep then [] :: s :: ss else (c :: s) :: ss

/-- Python truthiness of a string: nonempty. -/
def pyTruthy (s : Str) : Bool := !s.isEmpty

/-- Python `a or b` on strings. -/
def pyOrStr (a b : Str) : Str := if pyTruthy a then a else b

/-- repo.parse_tags, loop body: skip empties, truncate to 32, dedup keeping
first-seen order (the Python loop with its `seen` set). -/
def dedupTags : List Str → List Str → List Str
  | [], _ => []
  | t :: rest, seen =>
    if pyTruthy t then
      let t32 := if t.length > 32 then t.take 32 else t
      if t32 ∈ seen then dedupTags rest seen
      else t32 :: dedupTags rest (t32 :: seen)
    else dedupTags rest seen

/-- repo.parse_tags: split raw input on ASCII and full-width comma, strip and
lowercase each token, truncate to 32 chars, drop empties, dedup in order. -/
def parse_tags (raw : Str) : List Str :=
  if pyTruthy raw then
    let items := (splitChar ',' (raw.map fun c => if c = '，' then ',' else c)).map
      (fun t => pyLower (pyStrip t))
    dedupTags items []
  else []

/-- Uppercase basic-latin letter. -/
def isUpperAscii (c : Char) : Bool := 'A' ≤ c ∧ c ≤ 'Z'

/-- The text is its own lowercase image (no uppercase basic-latin letters
survive Python lower()). -/
def isLowerStr (s : Str) : Bool := s.all fun c => !isUpperAscii c

/-- Row of the notes table (db.py SCHEMA_SQL). -/
structure Note where
  id : Nat
  title : Str
  content : Str
  pinned : Bool
  createdAt : Str
  updatedAt : Str
  deriving DecidableEq, Repr

/-- Row of the tags table. -/
structure Tag where
  id : Nat
  name : Str
  deriving DecidableEq, Repr

/-- Row of the notes_fts virtual table (rowid keyed to notes.id). -/
structure FtsRow where
  rowid : Nat
  title : Str
  content : Str
  deriving DecidableEq, Repr

/-- The database: the four tables of SCHEMA_SQL plus the AUTOINCREMENT
counters of notes and tags. -/
structure DB where
  notes : List Note
  tags : List Tag
  noteTags : List (Nat × Nat)
  fts : List FtsRow
  nextNoteId : Nat
  nextTagId : Nat
  deriving DecidableEq, Repr

/-- The freshly initialized database (init_db on a new file). -/
def initDB : DB := ⟨[], [], [], [], 1, 1⟩

/-- The notes_fts mirror of a notes row (SCHEMA_SQL triggers copy id, title,
content). -/
def mirror (n : Note) : FtsRow := ⟨n.id, n.title, n.content⟩

/-- Errors surfaced by SQLite to the repository. -/
inductive SqlErr where
  | fkViolation
  deriving DecidableEq, Repr

/-- INSERT INTO notes plus the notes_ai trigger: append the row under the next
AUTOINCREMENT id and mirror it into notes_fts, returning the new id. -/
def notesInsert (db : DB) (title content : Str) (pinned : Bool) (created updated : Str) :
    DB × Nat :=
  let n : Note := ⟨db.nextNoteId, title, content, pinned, created, updated⟩
  ({ db with
      notes := db.notes ++ [n]
      fts := db.fts ++ [mirror n]
      nextNoteId := db.nextNoteId + 1 },
   n.id)

/-- UPDATE notes ... WHERE id = nid plus the notes_au trigger: rewrite every
matching row, and for each one delete its notes_fts entry and append the
updated mirror. -/
def notesUpdate (db : DB) (nid : Nat) (f : Note → Note) : DB :=
  let hits := db.notes.filter fun n => n.id = nid
  { db with
      notes := db.notes.map fun n => if n.id = nid then f n else n
      fts := if hits.isEmpty then db.fts
             else db.fts.filter (fun r => r.rowid ≠ nid) ++ hits.map fun n => mirror (f n) }

/-- DELETE FROM notes WHERE id = nid plus the notes_ad trigger and the
ON DELETE CASCADE of note_tags. -/
def notesDelete (db : DB) (nid : Nat) : DB :=
  { db with
      notes := db.notes.filter fun n => n.id ≠ nid
      fts := db.fts.filter fun r => r.rowid ≠ nid
      noteTags := db.noteTags.filter fun p => p.1 ≠ nid }

/-- repo._ensure_tag: INSERT OR IGNORE INTO tags(name) then SELECT its id. -/
def ensureTag (db : DB) (name : Str) : DB × Nat :=
  let db1 := if db.tags.any fun t => t.name = name then db
             else { db with
                      tags := db.tags ++ [⟨db.nextTagId, name⟩]
                      nextTagId := db.nextTagId + 1 }
  (db1, (((db1.tags.find? fun t => t.name = name).map Tag.id).getD 0))

/-- INSERT OR IGNORE INTO note_tags: the UNIQUE (note_id, tag_id) conflict is
ignored, but the foreign-key check (PRAGMA foreign_keys = ON) is not subject
to OR IGNORE and raises when either id is dangling. -/
def noteTagsInsert (db : DB) (nid tid : Nat) : Except SqlErr DB :=
  if (db.notes.any fun n => n.id = nid) ∧ (db.tags.any fun t => t.id = tid) then
    .ok (if (nid, tid) ∈ db.noteTags then db
         else { db with noteTags := db.noteTags ++ [(nid, tid)] })
  else .error .fkViolation

/-- repo._set_note_tags, loop part: ensure each tag row and associate it. -/
def setTagsLoop (nid : Nat) : List Str → DB → Except SqlErr DB
  | [], db => .ok db
  | name :: rest, db =>
    let p := ensureTag db name
    match noteTagsInsert p.1 nid p.2 with
    | .ok db2 => setTagsLoop nid rest db2
    | .error e => .error e

/-- repo._set_note_tags: DELETE FROM note_tags WHERE note_id = nid, then
lazily create and associate every tag of the list. -/
def set_note_tags (db : DB) (nid : Nat) (tags : List Str) : Except SqlErr DB :=
  setTagsLoop nid tags { db with noteTags := db.noteTags.filter fun p => p.1 ≠ nid }

/-- repo.create_note: insert the note (title trimmed, defaulted to Untitled;
content as given) stamped with the current time, then set its tags. -/
def create_note (db : DB) (title content : Str) (tags : List Str) (now : Str) :
    Except SqlErr (DB × Nat) :=
  let p := notesInsert db (pyOrStr (pyStrip title) (str "Untitled")) (pyOrStr content [])
    false now now
  (set_note_tags p.1 p.2 tags).map fun d => (d, p.2)

/-- repo.update_note: UPDATE title/content/updated_at WHERE id, then replace
the full tag association set. -/
def update_note (db : DB) (nid : Nat) (title content : Str) (tags : List Str) (now : Str) :
    Except SqlErr DB :=
  let db1 := notesUpdate db nid fun n =>
    { n with
        title := pyOrStr (pyStrip title) (str "Untitled")
        content := pyOrStr content []
        updatedAt := now }
  set_note_tags db1 nid tags

/-- repo.delete_note. -/
def delete_note (db : DB) (nid : Nat) : DB := notesDelete db nid

/-- repo.toggle_pin: flip pinned, then re-stamp updated_at (two UPDATEs, each
firing the notes_au trigger). -/
def toggle_pin (db : DB) (nid : Nat) (now : Str) : DB :=
  let db1 := notesUpdate db nid fun n => { n with pinned := !n.pinned }
  notesUpdate db1 nid fun n => { n with updatedAt := now }

/-- The mutating repository operations, each carrying its caller-supplied
arguments and the wall-clock timestamp of the call. -/
inductive Op where
  | create (title content : Str) (tags : List Str) (now : Str)
  | update (nid : Nat) (title content : Str) (tags : List Str) (now : Str)
  | delete (nid : Nat)
  | togglePin (nid : Nat) (now : Str)

/-- Tag-list arguments of an operation. -/
def Op.tagArgs : Op → List Str
  | .create _ _ tags _ => tags
  | .update _ _ _ tags _ => tags
  | .delete _ => []
  | .togglePin _ _ => []

/-- An operation as a transaction body on the connection. -/
def Op.run : Op → DB → Except SqlErr DB
  | .create title content tags now, db => (create_note db title content tags now).map (·.1)
  | .update nid title content tags now, db => update_note db nid title content tags now
  | .delete nid, db => .ok (delete_note db nid)
  | .togglePin nid now, db => .ok (toggle_pin db nid now)

/-- db.connect: run the transaction body against the persisted state; commit
its result on success, roll back to the original state on any exception and
re-raise it. First component: what the caller sees; second: the persisted
state afterwards. -/
def scopedExec (op : DB → Except SqlErr DB) (db : DB) : Except SqlErr DB × DB :=
  match op db with
  | .ok db2 => (.ok db2, db2)
  | .error e => (.error e, db)

/-- Persisted effect of one scoped repository call. -/
def applyOp (op : Op) (db : DB) : DB := (scopedExec op.run db).2

/-- Persisted state after a sequence of scoped repository calls on a fresh
database. -/
def runOps (ops : List Op) : DB := ops.foldl (fun db op => applyOp op db) initDB

/-- A state some sequence of repository calls can leave behind. -/
def Reachable (db : DB) : Prop := ∃ ops, runOps ops = db

/-- SQLite TEXT comparison: bytewise UTF-8, i.e. lexicographic on code
points. True when a sorts no later than b. -/
def lexLe : Str → Str → Bool
  | [], _ => true
  | _ :: _, [] => false
  | a :: as, b :: bs => if a < b then true else if b < a then false else lexLe as bs

/-- ORDER BY pinned DESC, updated_at DESC: a may come before b. -/
def noteLe (a b : Note) : Bool :=
  if a.pinned = b.pinned then lexLe b.updatedAt a.updatedAt else a.pinned

/-- ORDER BY cnt DESC, name ASC on (name, count) rows of list_tags. -/
def tagLe (a b : Str × Nat) : Bool :=
  if a.2 = b.2 then lexLe a.1 b.1 else b.2 < a.2

/-- Insertion into a sorted list, for the ORDER BY model. -/
def listInsert {α : Type} (le : α → α → Bool) (a : α) : List α → List α
  | [] => [a]
  | b :: bs => if le a b then a :: b :: bs else b :: listInsert le a bs

/-- The ORDER BY of a SELECT: a stable sort of the result rows under the
given comparator (insertion sort; SQLite guarantees only the ordering). -/
def sortBy {α : Type} (le : α → α → Bool) : List α → List α
  | [] => []
  | a :: as => listInsert le a (sortBy le as)

/-- A row of the list_notes / search_notes result sets. -/
structure Summary where
  id : Nat
  title : Str
  excerpt : Str
  pinned : Bool
  createdAt : Str
  updatedAt : Str
  tags : List Str
  deriving DecidableEq, Repr

/-- The list_notes ordering at the result-row level (pinned DESC,
updated_at DESC). -/
def summLe (a b : Summary) : Bool :=
  if a.pinned = b.pinned then lexLe b.updatedAt a.updatedAt else a.pinned

/-- The dict returned by repo.get_note. -/
structure NoteView where
  id : Nat
  title : Str
  content : Str
  pinned : Bool
  createdAt : Str
  updatedAt : Str
  tags : List Str
  deriving DecidableEq, Repr

/-- Unsorted result of the _get_tags_for_note join (tags x note_tags on
tag_id with the note id fixed): one name per association row, before the
ORDER BY; under the UNIQUE constraints of tags(id)/note_tags the join yields
exactly these rows. -/
def assocNames (db : DB) (nid : Nat) : List Str :=
  (db.noteTags.filter fun p => p.1 = nid).filterMap fun p =>
    (db.tags.find? fun t => t.id = p.2).map Tag.name

/-- repo._get_tags_for_note: names of the tags joined through note_tags,
ORDER BY name. -/
def tagsForNote (db : DB) (nid : Nat) : List Str :=
  sortBy lexLe (assocNames db nid)

/-- repo.get_note. -/
def get_note (db : DB) (nid : Nat) : Option NoteView :=
  (db.notes.find? fun n => n.id = nid).map fun n =>
    ⟨n.id, n.title, n.content, n.pinned, n.createdAt, n.updatedAt, tagsForNote db n.id⟩

/-- Excerpt construction shared by list_notes and search_notes: strip the
content, collapse newlines to spaces, truncate to the cutoff with an
ellipsis marker. -/
def excerptOf (cut : Nat) (content : Str) : Str :=
  let e := (pyStrip content).map fun c => if c = '\n' then ' ' else c
  if e.length > cut then e.take cut ++ ['…'] else e

/-- One result row as built by list_notes (cut 160) or search_notes (cut 180). -/
def mkSummary (db : DB) (cut : Nat) (n : Note) : Summary :=
  ⟨n.id, n.title, excerptOf cut n.content, n.pinned, n.createdAt, n.updatedAt,
   tagsForNote db n.id⟩

/-- Python truthiness of the optional tag filter: None and the empty string
are both falsy. -/
def tagActive : Option Str → Bool
  | none => false
  | some t => pyTruthy t

/-- The JOIN of list_notes: the note has an associated tag of this name.
Under the UNIQUE constraints on tags.name and note_tags pairs the join
produces at most one row per note. -/
def hasTagName (db : DB) (nid : Nat) (name : Str) : Bool :=
  db.noteTags.any fun p => p.1 = nid ∧ db.tags.any fun t => t.id = p.2 ∧ t.name = name

/-- repo.list_notes: optional (lowercased) tag filter, ORDER BY pinned DESC,
updated_at DESC, LIMIT, rows mapped to summaries with a 160-char excerpt. -/
def list_notes (db : DB) (tag : Option Str) (limit : Nat) : List Summary :=
  let base := if tagActive tag then
      db.notes.filter fun n => hasTagName db n.id (pyLower (tag.getD []))
    else db.notes
  ((sortBy noteLe base).take limit).map (mkSummary db 160)

/-- Modelled from the spec: the FTS5 unicode61 tokenizer (SQLite library code,
not part of this repository) splits text on non-alphanumeric boundaries and
case-folds the tokens; basic-latin fragment. -/
def ftsTokens : Str → List Str
  | [] => []
  | c :: rest =>
    let c := Char.toLower c
    let r := ftsTokens rest
    if c.isAlphanum then
      match rest with
      | [] => [[c]]
      | d :: _ =>
        if (Char.toLower d).isAlphanum then
          match r with
          | [] => [[c]]
          | s :: ss => (c :: s) :: ss
        else [c] :: r
    else r

/-- repo.search_notes query tokenization: ideographic spaces to spaces, split
on spaces, drop empty tokens. -/
def queryTokens (q : Str) : List Str :=
  (splitChar ' ' (q.map fun c => if c = '　' then ' ' else c)).filter pyTruthy

/-- Modelled from the spec: one bare query token MATCHes an indexed row when
its case-folded form occurs among the tokens of the row's title or content. -/
def rowMatchesTok (tok : Str) (r : FtsRow) : Bool :=
  pyLower tok ∈ ftsTokens r.title ∨ pyLower tok ∈ ftsTokens r.content

/-- repo.search_notes: empty stripped query short-circuits; otherwise all
query tokens must match (AND-join) and matching fts rows are joined back to
notes and summarized with a 180-char excerpt. The bm25 rank ordering of the
source is floating-point and is not modelled; the result list is exact
whenever at most one row matches (the situations the claims quantify over),
and is always the correct result set up to ordering before LIMIT. -/
def search_notes (db : DB) (query : Str) (limit : Nat) : List Summary :=
  let q := pyStrip query
  if pyTruthy q then
    let toks := queryTokens q
    ((db.fts.filter fun r => toks.all fun t => rowMatchesTok t r).filterMap fun r =>
        (db.notes.find? fun n => n.id = r.rowid).map (mkSummary db 180)).take limit
  else []

/-- repo.list_tags: every tag with its association count (LEFT JOIN note_tags,
GROUP BY t.id), ORDER BY cnt DESC, name ASC. -/
def list_tags (db : DB) : List (Str × Nat) :=
  sortBy tagLe (db.tags.map fun t =>
    (t.name, (db.noteTags.filter fun p => p.2 = t.id).length))

/-- Ids of the notes table. -/
def noteIds (db : DB) : List Nat := db.notes.map Note.id

/-- Ids of the tags table. -/
def tagIds (db : DB) : List Nat := db.tags.map Tag.id

/-- Names of the tags table. -/
def tagNames (db : DB) : List Str := db.tags.map Tag.name

/-- Integrity of the tags table: unique ids (PRIMARY KEY), unique names
(UNIQUE), ids below the AUTOINCREMENT counter. -/
def TagInv (db : DB) : Prop :=
  (tagIds db).Nodup ∧ (tagNames db).Nodup ∧ ∀ t ∈ db.tags, t.id < db.nextTagId

/-- Integrity invariant of a database state: primary keys unique and below
the AUTOINCREMENT counters, associations reference live rows, and the
notes_fts table is exactly the multiset of note mirrors. -/
structure Inv (db : DB) : Prop where
  notesNd : (noteIds db).Nodup
  notesLt : ∀ n ∈ db.notes, n.id < db.nextNoteId
  tagInv : TagInv db
  ntNd : db.noteTags.Nodup
  ntRefN : ∀ p ∈ db.noteTags, p.1 ∈ noteIds db
  ntRefT : ∀ p ∈ db.noteTags, p.2 ∈ tagIds db
  ftsPerm : db.fts.Perm (db.notes.map mirror)

/-- The notes row written by create_note. -/
def storedNote (db : DB) (title content now : Str) : Note :=
  ⟨db.nextNoteId, pyOrStr (pyStrip title) (str "Untitled"), pyOrStr content [],
   false, now, now⟩

/-- The per-row rewrite performed by the UPDATE of repo.update_note. -/
def updatedNote (title content now : Str) (n : Note) : Note :=
  { n with
      title := pyOrStr (pyStrip title) (str "Untitled")
      content := pyOrStr content []
      updatedAt := now }

theorem char_le_iff_toNat {a b : Char} : a ≤ b ↔ a.toNat ≤ b.toNat := Iff.rfl

theorem toLower_not_upper (c : Char) : isUpperAscii (Char.toLower c) = false := by
  by_cases h : c.toNat ≥ 65 ∧ c.toNat ≤ 90
  · have hval : (Char.toLower c).toNat = c.toNat + 32 := by
      unfold Char.toLower
      rw [if_pos h]
      have hvalid : Nat.isValidChar (c.toNat + 32) := by
        left; omega
      unfold Char.ofNat
      rw [dif_pos hvalid]
      rfl
    simp only [isUpperAscii]
    have hz : ('Z' : Char).toNat = 90 := by decide
    have : ¬ (Char.toLower c ≤ 'Z') := by
      rw [char_le_iff_toNat, hval, hz]
      omega
    simp [this]
  · have hval : Char.toLower c = c := by
      unfold Char.toLower
      rw [if_neg h]
    have ha : ('A' : Char).toNat = 65 := by decide
    have hz : ('Z' : Char).toNat = 90 := by decide
    simp only [isUpperAscii, hval]
    rcases Nat.lt_or_ge c.toNat 65 with hlt | hge
    · have : ¬ ('A' ≤ c) := by
        rw [char_le_iff_toNat, ha]
        omega
      simp [this]
    · have hgt : c.toNat > 90 := by omega
      have : ¬ (c ≤ 'Z') := by
        rw [char_le_iff_toNat, hz]
        omega
      simp [this]

theorem pyLower_isLower (s : Str) : isLowerStr (pyLower s) = true := by
  induction s with
  | nil => rfl
  | cons c cs ih =>
    simp only [pyLower, List.map, isLowerStr, List.all_cons] at *
    simp [toLower_not_upper c, ih]

theorem lexLe_total : ∀ a b : Str, (lexLe a b || lexLe b a) = true
  | [], b => by cases b <;> simp [lexLe]
  | a :: as, [] => by simp [lexLe]
  | a :: as, b :: bs => by
    simp only [lexLe]
    rcases lt_trichotomy a b with h | h | h
    · simp [h]
    · subst h
      simp [lt_irrefl, lexLe_total as bs]
    · simp [h, lt_asymm h]

theorem lexLe_trans : ∀ a b c : Str, lexLe a b = true → lexLe b c = true → lexLe a c = true
  | [], _, _, _, _ => by simp [lexLe]
  | _ :: _, [], _, h, _ => by simp [lexLe] at h
  | _ :: _, _ :: _, [], _, h2 => by simp [lexLe] at h2
  | a :: as, b :: bs, c :: cs, h1, h2 => by
    simp only [lexLe] at h1 h2 ⊢
    rcases lt_trichotomy a b with hab | hab | hab
    · rcases lt_trichotomy b c with hbc | hbc | hbc
      · simp [lt_trans hab hbc]
      · subst hbc
        simp [hab]
      · rw [if_neg (lt_asymm hbc), if_pos hbc] at h2
        exact absurd h2 (by simp)
    · subst hab
      rcases lt_trichotomy a c with hbc | hbc | hbc
      · simp [hbc]
      · subst hbc
        rw [if_neg (lt_irrefl a), if_neg (lt_irrefl a)] at h1 h2 ⊢
        exact lexLe_trans as bs cs h1 h2
      · rw [if_neg (lt_asymm hbc), if_pos hbc] at h2
        exact absurd h2 (by simp)
    · rw [if_neg (lt_asymm hab), if_pos hab] at h1
      exact absurd h1 (by simp)

theorem noteLe_total (a b : Note) : (noteLe a b || noteLe b a) = true := by
  unfold noteLe
  by_cases h : a.pinned = b.pinned
  · rw [if_pos h, if_pos h.symm]
    exact lexLe_total _ _
  · rw [if_neg h, if_neg (Ne.symm h)]
    cases ha : a.pinned <;> cases hb : b.pinned <;> simp_all

theorem noteLe_trans (a b c : Note) (h1 : noteLe a b = true) (h2 : noteLe b c = true) :
    noteLe a c = true := by
  unfold noteLe at *
  by_cases hab : a.pinned = b.pinned <;> by_cases hbc : b.pinned = c.pinned
  · rw [if_pos hab] at h1
    rw [if_pos hbc] at h2
    rw [if_pos (hab.trans hbc)]
    exact lexLe_trans _ _ _ h2 h1
  · rw [if_neg hbc] at h2
    rw [if_neg (by rw [hab]; exact hbc)]
    rw [hab]
    exact h2
  · rw [if_neg hab] at h1
    rw [if_neg (by rw [← hbc]; exact hab)]
    exact h1
  · rw [if_neg hab] at h1
    rw [if_neg hbc] at h2
    exact absurd (h1.trans h2.symm) hab

theorem tagLe_total (a b : Str × Nat) : (tagLe a b || tagLe b a) = true := by
  unfold tagLe
  by_cases h : a.2 = b.2
  · rw [if_pos h, if_pos h.symm]
    exact lexLe_total _ _
  · rw [if_neg h, if_neg (Ne.symm h)]
    rcases Nat.lt_or_ge a.2 b.2 with hlt | hge
    · simp [hlt]
    · simp [Nat.lt_of_le_of_ne hge (Ne.symm h)]

theorem tagLe_trans (a b c : Str × Nat) (h1 : tagLe a b = true) (h2 : tagLe b c = true) :
    tagLe a c = true := by
  unfold tagLe at *
  by_cases hab : a.2 = b.2 <;> by_cases hbc : b.2 = c.2
  · rw [if_pos hab] at h1
    rw [if_pos hbc] at h2
    rw [if_pos (hab.trans hbc)]
    exact lexLe_trans _ _ _ h1 h2
  · rw [if_neg hbc] at h2
    rw [if_neg (by rw [hab]; exact hbc)]
    simp only [decide_eq_true_eq] at h2 ⊢
    omega
  · rw [if_neg hab] at h1
    rw [if_neg (by rw [← hbc]; exact hab)]
    simp only [decide_eq_true_eq] at h1 ⊢
    omega
  · rw [if_neg hab] at h1
    rw [if_neg hbc] at h2
    rw [if_neg (by simp only [decide_eq_true_eq] at h1 h2; omega)]
    simp only [decide_eq_true_eq] at h1 h2 ⊢
    omega

theorem find_by_key {α κ : Type} [DecidableEq κ] (key : α → κ) :
    ∀ (l : List α) (a : α), (l.map key).Nodup → a ∈ l →
      (l.find? fun x => key x = key a) = some a
  | [], a, _, ha => absurd ha (List.not_mem_nil a)
  | b :: bs, a, hnd, ha => by
    rcases List.mem_cons.mp ha with rfl | hmem
    · simp [List.find?_cons_of_pos]
    · have hnd2 := hnd
      rw [List.map_cons, List.nodup_cons] at hnd2
      have hne : key b ≠ key a := by
        intro he
        exact hnd2.1 (he ▸ List.mem_map_of_mem key hmem)
      rw [List.find?_cons_of_neg _ (by simp [hne])]
      exact find_by_key key bs a hnd2.2 hmem

theorem listInsert_perm {α : Type} (le : α → α → Bool) (a : α) :
    ∀ l : List α, (listInsert le a l).Perm (a :: l)
  | [] => List.Perm.refl _
  | b :: bs => by
    unfold listInsert
    by_cases h : le a b = true
    · rw [if_pos h]
    · rw [if_neg h]
      exact ((listInsert_perm le a bs).cons b).trans (List.Perm.swap a b bs)

theorem sortBy_perm {α : Type} (le : α → α → Bool) : ∀ l : List α, (sortBy le l).Perm l
  | [] => List.Perm.refl _
  | a :: as => (listInsert_perm le a (sortBy le as)).trans ((sortBy_perm le as).cons a)

theorem mem_listInsert {α : Type} (le : α → α → Bool) (a x : α) (l : List α) :
    x ∈ listInsert le a l ↔ x = a ∨ x ∈ l := by
  rw [(listInsert_perm le a l).mem_iff, List.mem_cons]

theorem mem_sortBy {α : Type} (le : α → α → Bool) (x : α) (l : List α) :
    x ∈ sortBy le l ↔ x ∈ l := (sortBy_perm le l).mem_iff

theorem length_sortBy {α : Type} (le : α → α → Bool) (l : List α) :
    (sortBy le l).length = l.length := (sortBy_perm le l).length_eq

theorem pairwise_listInsert {α : Type} (le : α → α → Bool)
    (htrans : ∀ a b c, le a b = true → le b c = true → le a c = true)
    (htotal : ∀ a b, (le a b || le b a) = true) (a : α) :
    ∀ l : List α, (l.Pairwise fun x y => le x y = true) →
      (listInsert le a l).Pairwise fun x y => le x y = true
  | [], _ => by simp [listInsert]
  | b :: bs, hp => by
    obtain ⟨hhead, htail⟩ := List.pairwise_cons.mp hp
    unfold listInsert
    by_cases h : le a b = true
    · rw [if_pos h]
      refine List.pairwise_cons.mpr ⟨?_, hp⟩
      intro x hx
      rcases List.mem_cons.mp hx with rfl | hx
      · exact h
      · exact htrans a b x h (hhead x hx)
    · rw [if_neg h]
      refine List.pairwise_cons.mpr ⟨?_, pairwise_listInsert le htrans htotal a bs htail⟩
      intro x hx
      rcases (mem_listInsert le a x bs).mp hx with rfl | hx
      · have hor := htotal x b
        rw [Bool.or_eq_true] at hor
        rcases hor with h1 | h1
        · exact absurd h1 h
        · exact h1
      · exact hhead x hx

theorem sortBy_pairwise {α : Type} (le : α → α → Bool)
    (htrans : ∀ a b c, le a b = true → le b c = true → le a c = true)
    (htotal : ∀ a b, (le a b || le b a) = true) :
    ∀ l : List α, (sortBy le l).Pairwise fun x y => le x y = true
  | [] => by simp [sortBy]
  | a :: as => pairwise_listInsert le htrans htotal a _ (sortBy_pairwise le htrans htotal as)

theorem any_id_note (db : DB) (nid : Nat) :
    (db.notes.any fun n => n.id = nid) = true ↔ nid ∈ noteIds db := by
  rw [List.any_eq_true]
  constructor
  · rintro ⟨n, hn, he⟩
    simp only [decide_eq_true_eq] at he
    exact he ▸ List.mem_map_of_mem Note.id hn
  · intro h
    obtain ⟨n, hn, he⟩ := List.mem_map.mp h
    exact ⟨n, hn, by simp [he]⟩

theorem any_id_tag (db : DB) (tid : Nat) :
    (db.tags.any fun t => t.id = tid) = true ↔ tid ∈ tagIds db := by
  rw [List.any_eq_true]
  constructor
  · rintro ⟨t, ht, he⟩
    simp only [decide_eq_true_eq] at he
    exact he ▸ List.mem_map_of_mem Tag.id ht
  · intro h
    obtain ⟨t, ht, he⟩ := List.mem_map.mp h
    exact ⟨t, ht, by simp [he]⟩

theorem ensureTag_pos (db : DB) (name : Str)
    (h : (db.tags.any fun t => t.name = name) = true) :
    ensureTag db name = (db, ((db.tags.find? fun t => t.name = name).map Tag.id).getD 0) := by
  simp only [ensureTag]
  rw [if_pos h]

theorem ensureTag_neg (db : DB) (name : Str)
    (h : ¬ (db.tags.any fun t => t.name = name) = true) :
    ensureTag db name =
      ({ db with tags := db.tags ++ [Tag.mk db.nextTagId name],
                 nextTagId := db.nextTagId + 1 },
       (((db.tags ++ [Tag.mk db.nextTagId name]).find? fun t => t.name = name).map
         Tag.id).getD 0) := by
  simp only [ensureTag]
  rw [if_neg h]

theorem ensureTag_fields (db : DB) (name : Str) :
    (ensureTag db name).1.notes = db.notes ∧ (ensureTag db name).1.fts = db.fts ∧
    (ensureTag db name).1.noteTags = db.noteTags ∧
    (ensureTag db name).1.nextNoteId = db.nextNoteId := by
  by_cases h : (db.tags.any fun t => t.name = name) = true
  · rw [ensureTag_pos db name h]
    exact ⟨rfl, rfl, rfl, rfl⟩
  · rw [ensureTag_neg db name h]
    exact ⟨rfl, rfl, rfl, rfl⟩

theorem ensureTag_tags_append (db : DB) (name : Str) :
    ∃ l, (ensureTag db name).1.tags = db.tags ++ l ∧ ∀ t ∈ l, t.name = name := by
  by_cases h : (db.tags.any fun t => t.name = name) = true
  · rw [ensureTag_pos db name h]
    exact ⟨[], by simp, by simp⟩
  · rw [ensureTag_neg db name h]
    exact ⟨[⟨db.nextTagId, name⟩], rfl, by simp⟩

theorem ensureTag_tagInv (db : DB) (name : Str) (h0 : TagInv db) :
    TagInv (ensureTag db name).1 := by
  obtain ⟨hids, hnames, hlt⟩ := h0
  by_cases h : (db.tags.any fun t => t.name = name) = true
  · rw [ensureTag_pos db name h]
    exact ⟨hids, hnames, hlt⟩
  · rw [ensureTag_neg db name h]
    refine ⟨?_, ?_, ?_⟩
    · simp only [tagIds, List.map_append, List.map_cons, List.map_nil]
      rw [List.nodup_append]
      refine ⟨hids, by simp, ?_⟩
      intro x hx
      simp only [List.mem_singleton]
      intro hx1
      subst hx1
      obtain ⟨t, ht, hteq⟩ := List.mem_map.mp hx
      exact absurd hteq (Nat.ne_of_lt (hlt t ht))
    · simp only [tagNames, List.map_append, List.map_cons, List.map_nil]
      rw [List.nodup_append]
      refine ⟨hnames, by simp, ?_⟩
      intro x hx
      simp only [List.mem_singleton]
      intro hx1
      subst hx1
      obtain ⟨t, ht, hteq⟩ := List.mem_map.mp hx
      rw [List.any_eq_true] at h
      exact h ⟨t, ht, by simp [hteq]⟩
    · intro t ht
      simp only [List.mem_append, List.mem_singleton] at ht
      rcases ht with ht | ht
      · exact Nat.lt_succ_of_lt (hlt t ht)
      · subst ht
        exact Nat.lt_succ_self _

theorem ensureTag_found (db : DB) (name : Str) :
    ∃ tg : Tag, tg ∈ (ensureTag db name).1.tags ∧ tg.name = name ∧
      (ensureTag db name).2 = tg.id := by
  by_cases h : (db.tags.any fun t => t.name = name) = true
  · have h2 := h
    rw [List.any_eq_true] at h2
    obtain ⟨t, ht, hteq⟩ := h2
    simp only [decide_eq_true_eq] at hteq
    have hsome : (db.tags.find? fun t => t.name = name).isSome := by
      rw [List.find?_isSome]
      exact ⟨t, ht, by simp [hteq]⟩
    obtain ⟨tg, htg⟩ := Option.isSome_iff_exists.mp hsome
    rw [ensureTag_pos db name h]
    refine ⟨tg, List.mem_of_find?_eq_some htg, ?_, ?_⟩
    · have := List.find?_some htg
      simpa using this
    · simp [htg]
  · have hnone : (db.tags.find? fun t => t.name = name) = none := by
      rw [List.find?_eq_none]
      intro t ht
      simp only [decide_eq_true_eq]
      intro hteq
      rw [List.any_eq_true] at h
      exact h ⟨t, ht, by simp [hteq]⟩
    rw [ensureTag_neg db name h]
    refine ⟨⟨db.nextTagId, name⟩, by simp, rfl, ?_⟩
    simp [List.find?_append, hnone]

theorem noteTagsInsert_err (db : DB) (nid tid : Nat) (h : nid ∉ noteIds db) :
    noteTagsInsert db nid tid = .error .fkViolation := by
  unfold noteTagsInsert
  rw [if_neg]
  intro hand
  exact h ((any_id_note db nid).mp hand.1)

theorem noteTagsInsert_ok (db : DB) (nid tid : Nat) (h1 : nid ∈ noteIds db)
    (h2 : tid ∈ tagIds db) :
    ∃ db2, noteTagsInsert db nid tid = .ok db2 ∧
      db2.notes = db.notes ∧ db2.tags = db.tags ∧ db2.fts = db.fts ∧
      db2.nextNoteId = db.nextNoteId ∧ db2.nextTagId = db.nextTagId ∧
      (∃ l, db2.noteTags = db.noteTags ++ l ∧ (∀ p ∈ l, p = (nid, tid)) ∧
        ((nid, tid) ∉ db.noteTags → l = [(nid, tid)])) ∧
      (db.noteTags.Nodup → db2.noteTags.Nodup) := by
  unfold noteTagsInsert
  rw [if_pos ⟨(any_id_note db nid).mpr h1, (any_id_tag db tid).mpr h2⟩]
  by_cases hmem : (nid, tid) ∈ db.noteTags
  · refine ⟨db, ?_, rfl, rfl, rfl, rfl, rfl, ⟨[], by simp, by simp, fun h => absurd hmem h⟩, id⟩
    rw [if_pos hmem]
  · refine ⟨{ db with noteTags := db.noteTags ++ [(nid, tid)] }, ?_, rfl, rfl, rfl, rfl, rfl,
      ⟨[(nid, tid)], rfl, by simp, fun h => rfl⟩, ?_⟩
    · rw [if_neg hmem]
    · intro hnd
      simp only [List.nodup_append, List.nodup_singleton]
      exact ⟨hnd, by simp, by simp [List.disjoint_singleton, hmem]⟩

theorem setTagsLoop_ok : ∀ (tags : List Str) (db : DB) (nid : Nat),
    TagInv db → nid ∈ noteIds db →
    ∃ db2, setTagsLoop nid tags db = .ok db2 ∧
      db2.notes = db.notes ∧ db2.fts = db.fts ∧ db2.nextNoteId = db.nextNoteId ∧
      TagInv db2 ∧
      (∃ l, db2.tags = db.tags ++ l ∧ ∀ t ∈ l, t.name ∈ tags) ∧
      (∃ pairs, db2.noteTags = db.noteTags ++ pairs ∧
        ∀ p ∈ pairs, p.1 = nid ∧ p.2 ∈ tagIds db2) ∧
      (db.noteTags.Nodup → db2.noteTags.Nodup)
  | [], db, nid, _, _ =>
    ⟨db, rfl, rfl, rfl, rfl, by assumption, ⟨[], by simp, by simp⟩,
      ⟨[], by simp, by simp⟩, id⟩
  | name :: rest, db, nid, hTag, hnid => by
    obtain ⟨hEnotes, hEfts, hEnt, hEnn⟩ := ensureTag_fields db name
    have hTagE := ensureTag_tagInv db name hTag
    obtain ⟨tg, htg_mem, htg_name, htid⟩ := ensureTag_found db name
    have htid_mem : (ensureTag db name).2 ∈ tagIds (ensureTag db name).1 :=
      htid ▸ List.mem_map_of_mem Tag.id htg_mem
    have hnidE : nid ∈ noteIds (ensureTag db name).1 := by
      unfold noteIds
      rw [hEnotes]
      exact hnid
    obtain ⟨dbI, hIeq, hInotes, hItags, hIfts, hInn, hIntid, ⟨lp, hlp, hlpAll, -⟩, hIndup⟩ :=
      noteTagsInsert_ok (ensureTag db name).1 nid (ensureTag db name).2 hnidE htid_mem
    have hTagI : TagInv dbI := by
      obtain ⟨ha, hb, hc⟩ := hTagE
      refine ⟨?_, ?_, ?_⟩
      · unfold tagIds
        rw [hItags]
        exact ha
      · unfold tagNames
        rw [hItags]
        exact hb
      · rw [hItags, hIntid]
        exact hc
    have hnidI : nid ∈ noteIds dbI := by
      unfold noteIds
      rw [hInotes, hEnotes]
      exact hnid
    obtain ⟨db2, h2eq, h2notes, h2fts, h2nn, h2Tag, ⟨l2, h2tags, h2names⟩,
      ⟨pairs2, h2pairs, h2pall⟩, h2ndup⟩ := setTagsLoop_ok rest dbI nid hTagI hnidI
    obtain ⟨lE, hlE, hlEAll⟩ := ensureTag_tags_append db name
    refine ⟨db2, ?_, ?_, ?_, ?_, h2Tag, ?_, ?_, ?_⟩
    · simp only [setTagsLoop]
      rw [hIeq]
      exact h2eq
    · rw [h2notes, hInotes, hEnotes]
    · rw [h2fts, hIfts, hEfts]
    · rw [h2nn, hInn, hEnn]
    · refine ⟨lE ++ l2, ?_, ?_⟩
      · rw [h2tags, hItags, hlE, List.append_assoc]
      · intro t ht
        rcases List.mem_append.mp ht with ht | ht
        · rw [hlEAll t ht]
          exact List.mem_cons_self name rest
        · exact List.mem_cons_of_mem name (h2names t ht)
    · refine ⟨lp ++ pairs2, ?_, ?_⟩
      · rw [h2pairs, hlp, hEnt, List.append_assoc]
      · intro p hp
        rcases List.mem_append.mp hp with hp | hp
        · rw [hlpAll p hp]
          refine ⟨rfl, ?_⟩
          have : (ensureTag db name).2 ∈ tagIds dbI := by
            unfold tagIds
            rw [hItags]
            exact htid_mem
          unfold tagIds at this ⊢
          rw [h2tags, List.map_append]
          exact List.mem_append_left _ this
        · exact h2pall p hp
    · intro hnd
      apply h2ndup
      apply hIndup
      rw [hEnt]
      exact hnd

theorem setTagsLoop_err (name : Str) (rest : List Str) (db : DB) (nid : Nat)
    (h : nid ∉ noteIds db) :
    setTagsLoop nid (name :: rest) db = .error .fkViolation := by
  obtain ⟨hEnotes, _, _, _⟩ := ensureTag_fields db name
  have hnidE : nid ∉ noteIds (ensureTag db name).1 := by
    unfold noteIds
    rw [hEnotes]
    exact h
  simp only [setTagsLoop]
  rw [noteTagsInsert_err _ _ _ hnidE]

theorem inv_initDB : Inv initDB :=
  ⟨by simp [noteIds, initDB], by simp [initDB], ⟨by simp [tagIds, initDB],
   by simp [tagNames, initDB], by simp [initDB]⟩, by simp [initDB], by simp [initDB],
   by simp [initDB], by simp [initDB]⟩

theorem map_id_of {α : Type} (f : α → α) :
    ∀ l : List α, (∀ a ∈ l, f a = a) → l.map f = l
  | [], _ => rfl
  | a :: as, h => by
    rw [List.map_cons, h a (List.mem_cons_self a as),
      map_id_of f as fun x hx => h x (List.mem_cons_of_mem a hx)]

theorem filter_key_single {α : Type} (key : α → Nat) (nid : Nat) :
    ∀ (l : List α) (a : α), (l.map key).Nodup → a ∈ l → key a = nid →
      (l.filter fun x => key x = nid) = [a]
  | [], a, _, ha, _ => absurd ha (List.not_mem_nil a)
  | b :: bs, a, hnd, ha, hkey => by
    rw [List.map_cons, List.nodup_cons] at hnd
    rcases List.mem_cons.mp ha with rfl | hmem
    · rw [List.filter_cons_of_pos (by simp [hkey])]
      have : (bs.filter fun x => key x = nid) = [] := by
        rw [List.filter_eq_nil_iff]
        intro x hx
        simp only [decide_eq_true_eq]
        intro hkx
        exact hnd.1 ((hkey.trans hkx.symm) ▸ List.mem_map_of_mem key hx)
      rw [this]
    · have hne : key b ≠ nid := by
        intro he
        exact hnd.1 ((he.trans hkey.symm) ▸ List.mem_map_of_mem key hmem)
      rw [List.filter_cons_of_neg (by simp [hne])]
      exact filter_key_single key nid bs a hnd.2 hmem hkey

theorem update_perm {α : Type} (key : α → Nat) (nid : Nat) (f : α → α) :
    ∀ (l : List α) (a : α), (l.map key).Nodup → a ∈ l → key a = nid →
      (l.map fun x => if key x = nid then f x else x).Perm
        ((l.filter fun x => key x ≠ nid) ++ [f a])
  | [], a, _, ha, _ => absurd ha (List.not_mem_nil a)
  | b :: bs, a, hnd, ha, hkey => by
    rw [List.map_cons, List.nodup_cons] at hnd
    rcases List.mem_cons.mp ha with rfl | hmem
    · rw [List.map_cons, if_pos hkey, List.filter_cons_of_neg (by simp [hkey])]
      have hbs : ∀ x ∈ bs, key x ≠ nid := by
        intro x hx he
        exact hnd.1 ((hkey.trans he.symm) ▸ List.mem_map_of_mem key hx)
      have h1 : (bs.map fun x => if key x = nid then f x else x) = bs :=
        map_id_of _ bs fun x hx => if_neg (hbs x hx)
      have h2 : (bs.filter fun x => key x ≠ nid) = bs := by
        rw [List.filter_eq_self]
        intro x hx
        simp [hbs x hx]
      rw [h1, h2]
      exact (List.perm_append_singleton (f a) bs).symm
    · have hne : key b ≠ nid := by
        intro he
        exact hnd.1 ((he.trans hkey.symm) ▸ List.mem_map_of_mem key hmem)
      rw [List.map_cons, if_neg hne, List.filter_cons_of_pos (by simp [hne]),
        List.cons_append]
      exact (update_perm key nid f bs a hnd.2 hmem hkey).cons b

theorem notesUpdate_miss (db : DB) (nid : Nat) (f : Note → Note)
    (h : ∀ n ∈ db.notes, n.id ≠ nid) : notesUpdate db nid f = db := by
  unfold notesUpdate
  have h1 : (db.notes.map fun n => if n.id = nid then f n else n) = db.notes :=
    map_id_of _ db.notes fun n hn => if_neg (h n hn)
  have h2 : (db.notes.filter fun n => n.id = nid) = [] := by
    rw [List.filter_eq_nil_iff]
    intro n hn
    simp [h n hn]
  rw [h1, h2]
  rfl

theorem notesUpdate_hit (db : DB) (nid : Nat) (f : Note → Note) (a : Note)
    (hnd : (noteIds db).Nodup) (ha : a ∈ db.notes) (hkey : a.id = nid) :
    notesUpdate db nid f =
      { db with
          notes := db.notes.map fun n => if n.id = nid then f n else n
          fts := db.fts.filter (fun r => r.rowid ≠ nid) ++ [mirror (f a)] } := by
  unfold notesUpdate
  have h2 : (db.notes.filter fun n => n.id = nid) = [a] :=
    filter_key_single Note.id nid db.notes a hnd ha hkey
  rw [h2]
  rfl

theorem notesUpdate_invPerm (db : DB) (nid : Nat) (f : Note → Note)
    (hnd : (noteIds db).Nodup)
    (hperm : db.fts.Perm (db.notes.map mirror)) :
    (notesUpdate db nid f).fts.Perm ((notesUpdate db nid f).notes.map mirror) := by
  by_cases hhit : ∃ a ∈ db.notes, a.id = nid
  · obtain ⟨a, ha, hkey⟩ := hhit
    rw [notesUpdate_hit db nid f a hnd ha hkey]
    have hmapped : ((db.notes.map fun n => if n.id = nid then f n else n).map mirror).Perm
        (((db.notes.filter fun n => n.id ≠ nid).map mirror) ++ [mirror (f a)]) := by
      have := (update_perm Note.id nid f db.notes a hnd ha hkey).map mirror
      rw [List.map_append] at this
      exact this
    have hfilt : ((db.notes.filter fun n => n.id ≠ nid).map mirror) =
        ((db.notes.map mirror).filter fun r => r.rowid ≠ nid) := by
      rw [List.filter_map]
      rfl
    refine List.Perm.trans ?_ hmapped.symm
    rw [hfilt]
    exact (hperm.filter _).append (List.Perm.refl _)
  · push_neg at hhit
    rw [notesUpdate_miss db nid f hhit]
    exact hperm

theorem create_note_spec (db : DB) (title content : Str) (tags : List Str) (now : Str)
    (hInv : Inv db) :
    ∃ db2, create_note db title content tags now = .ok (db2, db.nextNoteId) ∧
      db2.notes = db.notes ++ [storedNote db title content now] ∧
      db2.fts = db.fts ++ [mirror (storedNote db title content now)] ∧
      db2.nextNoteId = db.nextNoteId + 1 ∧
      (∃ l, db2.tags = db.tags ++ l ∧ ∀ t ∈ l, t.name ∈ tags) ∧
      (∃ pairs, db2.noteTags = db.noteTags ++ pairs ∧
        ∀ p ∈ pairs, p.1 = db.nextNoteId ∧ p.2 ∈ tagIds db2) ∧
      Inv db2 := by
  have hfresh : ∀ p ∈ db.noteTags, p.1 ≠ db.nextNoteId := by
    intro p hp
    obtain ⟨n, hn, heq⟩ := List.mem_map.mp (hInv.ntRefN p hp)
    have := hInv.notesLt n hn
    omega
  have hfilter : (db.noteTags.filter fun p => p.1 ≠ db.nextNoteId) = db.noteTags := by
    rw [List.filter_eq_self]
    intro p hp
    simp [hfresh p hp]
  have hrun : create_note db title content tags now =
      (setTagsLoop db.nextNoteId tags
        { db with
            notes := db.notes ++ [storedNote db title content now]
            fts := db.fts ++ [mirror (storedNote db title content now)]
            nextNoteId := db.nextNoteId + 1
            noteTags := db.noteTags.filter fun p => p.1 ≠ db.nextNoteId }).map
        fun d => (d, db.nextNoteId) := by
    simp only [create_note, set_note_tags, notesInsert, storedNote]
  have hTagF : TagInv
      { db with
          notes := db.notes ++ [storedNote db title content now]
          fts := db.fts ++ [mirror (storedNote db title content now)]
          nextNoteId := db.nextNoteId + 1
          noteTags := db.noteTags.filter fun p => p.1 ≠ db.nextNoteId } := by
    exact hInv.tagInv
  have hnidF : db.nextNoteId ∈ noteIds
      { db with
          notes := db.notes ++ [storedNote db title content now]
          fts := db.fts ++ [mirror (storedNote db title content now)]
          nextNoteId := db.nextNoteId + 1
          noteTags := db.noteTags.filter fun p => p.1 ≠ db.nextNoteId } := by
    unfold noteIds
    simp [storedNote]
  obtain ⟨db2, h2eq, h2notes, h2fts, h2nn, h2Tag, ⟨l, h2tags, h2names⟩,
    ⟨pairs, h2pairs, h2pall⟩, h2ndup⟩ := setTagsLoop_ok tags _ db.nextNoteId hTagF hnidF
  rw [hfilter] at h2pairs
  refine ⟨db2, ?_, ?_, ?_, ?_, ⟨l, ?_, h2names⟩, ⟨pairs, h2pairs, h2pall⟩, ?_⟩
  · rw [hrun, h2eq]
    rfl
  · rw [h2notes]
  · rw [h2fts]
  · rw [h2nn]
  · rw [h2tags]
  · refine ⟨?_, ?_, h2Tag, ?_, ?_, ?_, ?_⟩
    · unfold noteIds
      rw [h2notes, List.map_append]
      rw [List.nodup_append]
      refine ⟨hInv.notesNd, by simp, ?_⟩
      intro x hx
      simp only [storedNote, List.map_cons, List.map_nil, List.mem_singleton]
      intro hx1
      subst hx1
      obtain ⟨n, hn, hne⟩ := List.mem_map.mp hx
      have := hInv.notesLt n hn
      omega
    · intro n hn
      rw [h2notes] at hn
      rw [h2nn]
      rcases List.mem_append.mp hn with hn | hn
      · exact Nat.lt_succ_of_lt (hInv.notesLt n hn)
      · rw [List.mem_singleton] at hn
        subst hn
        exact Nat.lt_succ_self _
    · exact h2ndup (List.Nodup.filter _ hInv.ntNd)
    · intro p hp
      rw [h2pairs] at hp
      unfold noteIds
      rw [h2notes, List.map_append]
      rcases List.mem_append.mp hp with hp | hp
      · exact List.mem_append_left _ (hInv.ntRefN p hp)
      · refine List.mem_append_right _ ?_
        rw [(h2pall p hp).1]
        simp [storedNote]
    · intro p hp
      rw [h2pairs] at hp
      rcases List.mem_append.mp hp with hp | hp
      · unfold tagIds
        rw [h2tags, List.map_append]
        exact List.mem_append_left _ (hInv.ntRefT p hp)
      · exact (h2pall p hp).2
    · rw [h2fts, h2notes, List.map_append]
      exact hInv.ftsPerm.append (List.Perm.refl _)

theorem map_key_ite {α : Type} (key : α → Nat) (g : α → α) (hg : ∀ a, key (g a) = key a)
    (nid : Nat) : ∀ l : List α,
      ((l.map fun x => if key x = nid then g x else x).map key) = l.map key
  | [] => rfl
  | a :: as => by
    rw [List.map_cons, List.map_cons, List.map_cons, map_key_ite key g hg nid as]
    congr 1
    by_cases h : key a = nid
    · rw [if_pos h, hg]
    · rw [if_neg h]

theorem notesUpdate_inv (db : DB) (nid : Nat) (f : Note → Note)
    (hf : ∀ n, (f n).id = n.id) (hInv : Inv db) : Inv (notesUpdate db nid f) := by
  have hids : noteIds (notesUpdate db nid f) = noteIds db := by
    unfold noteIds notesUpdate
    exact map_key_ite Note.id f hf nid db.notes
  refine ⟨?_, ?_, hInv.tagInv, hInv.ntNd, ?_, hInv.ntRefT, ?_⟩
  · rw [hids]
    exact hInv.notesNd
  · intro n hn
    show n.id < db.nextNoteId
    obtain ⟨m, hm, rfl⟩ := List.mem_map.mp hn
    by_cases h : m.id = nid
    · rw [if_pos h, hf]
      exact hInv.notesLt m hm
    · rw [if_neg h]
      exact hInv.notesLt m hm
  · intro p hp
    rw [hids]
    exact hInv.ntRefN p hp
  · exact notesUpdate_invPerm db nid f hInv.notesNd hInv.ftsPerm

theorem notesDelete_inv (db : DB) (nid : Nat) (hInv : Inv db) : Inv (notesDelete db nid) := by
  refine ⟨?_, ?_, hInv.tagInv, ?_, ?_, ?_, ?_⟩
  · exact hInv.notesNd.sublist (List.Sublist.map Note.id (List.filter_sublist db.notes))
  · intro n hn
    exact hInv.notesLt n (List.mem_of_mem_filter hn)
  · exact hInv.ntNd.sublist (List.filter_sublist db.noteTags)
  · intro p hp
    obtain ⟨hp1, hp2⟩ := List.mem_filter.mp hp
    simp only [decide_eq_true_eq] at hp2
    obtain ⟨n, hn, heq⟩ := List.mem_map.mp (hInv.ntRefN p hp1)
    refine List.mem_map.mpr ⟨n, List.mem_filter.mpr ⟨hn, ?_⟩, heq⟩
    simp only [decide_eq_true_eq]
    omega
  · intro p hp
    exact hInv.ntRefT p (List.mem_of_mem_filter hp)
  · have h1 : ((db.notes.filter fun n => n.id ≠ nid).map mirror) =
        ((db.notes.map mirror).filter fun r => r.rowid ≠ nid) := by
      rw [List.filter_map]
      rfl
    show (db.fts.filter fun r => r.rowid ≠ nid).Perm
      ((db.notes.filter fun n => n.id ≠ nid).map mirror)
    rw [h1]
    exact hInv.ftsPerm.filter _

theorem set_note_tags_spec (db : DB) (nid : Nat) (tags : List Str)
    (hInv : Inv db) (hnid : nid ∈ noteIds db) :
    ∃ db2, set_note_tags db nid tags = .ok db2 ∧
      db2.notes = db.notes ∧ db2.fts = db.fts ∧ db2.nextNoteId = db.nextNoteId ∧
      (∃ l, db2.tags = db.tags ++ l ∧ ∀ t ∈ l, t.name ∈ tags) ∧
      (∃ pairs, db2.noteTags = (db.noteTags.filter fun p => p.1 ≠ nid) ++ pairs ∧
        ∀ p ∈ pairs, p.1 = nid ∧ p.2 ∈ tagIds db2) ∧
      Inv db2 := by
  have hTagF : TagInv { db with noteTags := db.noteTags.filter fun p => p.1 ≠ nid } :=
    hInv.tagInv
  have hnidF : nid ∈ noteIds { db with noteTags := db.noteTags.filter fun p => p.1 ≠ nid } :=
    hnid
  obtain ⟨db2, h2eq, h2notes, h2fts, h2nn, h2Tag, ⟨l, h2tags, h2names⟩,
    ⟨pairs, h2pairs, h2pall⟩, h2ndup⟩ := setTagsLoop_ok tags _ nid hTagF hnidF
  refine ⟨db2, h2eq, h2notes, h2fts, h2nn, ⟨l, h2tags, h2names⟩,
    ⟨pairs, h2pairs, h2pall⟩, ?_⟩
  refine ⟨?_, ?_, h2Tag, ?_, ?_, ?_, ?_⟩
  · unfold noteIds
    rw [h2notes]
    exact hInv.notesNd
  · intro n hn
    rw [h2notes] at hn
    rw [h2nn]
    exact hInv.notesLt n hn
  · have hok : ((db.noteTags.filter fun p => p.1 ≠ nid)).Nodup :=
      hInv.ntNd.sublist (List.filter_sublist db.noteTags)
    exact h2ndup hok
  · intro p hp
    rw [h2pairs] at hp
    unfold noteIds
    rw [h2notes]
    rcases List.mem_append.mp hp with hp | hp
    · exact hInv.ntRefN p (List.mem_of_mem_filter hp)
    · rw [(h2pall p hp).1]
      exact hnid
  · intro p hp
    rw [h2pairs] at hp
    rcases List.mem_append.mp hp with hp | hp
    · unfold tagIds
      rw [h2tags, List.map_append]
      exact List.mem_append_left _ (hInv.ntRefT p (List.mem_of_mem_filter hp))
    · exact (h2pall p hp).2
  · rw [h2fts, h2notes]
    exact hInv.ftsPerm

theorem update_note_spec (db : DB) (nid : Nat) (title content : Str) (tags : List Str)
    (now : Str) (hInv : Inv db) (a : Note) (ha : a ∈ db.notes) (hkey : a.id = nid) :
    ∃ db2, update_note db nid title content tags now = .ok db2 ∧
      db2.notes = db.notes.map (fun n => if n.id = nid then updatedNote title content now n
        else n) ∧
      db2.fts = (db.fts.filter fun r => r.rowid ≠ nid) ++
        [mirror (updatedNote title content now a)] ∧
      db2.nextNoteId = db.nextNoteId ∧
      (∃ l, db2.tags = db.tags ++ l ∧ ∀ t ∈ l, t.name ∈ tags) ∧
      (∃ pairs, db2.noteTags = (db.noteTags.filter fun p => p.1 ≠ nid) ++ pairs ∧
        ∀ p ∈ pairs, p.1 = nid ∧ p.2 ∈ tagIds db2) ∧
      Inv db2 := by
  have hg : ∀ n, (updatedNote title content now n).id = n.id := fun n => rfl
  have hup := notesUpdate_hit db nid (updatedNote title content now) a hInv.notesNd ha hkey
  have hInv1 : Inv (notesUpdate db nid (updatedNote title content now)) :=
    notesUpdate_inv db nid _ hg hInv
  have hnid1 : nid ∈ noteIds (notesUpdate db nid (updatedNote title content now)) := by
    unfold noteIds notesUpdate
    rw [map_key_ite Note.id _ hg nid db.notes]
    exact hkey ▸ List.mem_map_of_mem Note.id ha
  obtain ⟨db2, h2eq, h2notes, h2fts, h2nn, h2tagsE, h2pairsE, h2Inv⟩ :=
    set_note_tags_spec _ nid tags hInv1 hnid1
  have hrun : update_note db nid title content tags now =
      set_note_tags (notesUpdate db nid (updatedNote title content now)) nid tags := rfl
  refine ⟨db2, by rw [hrun, h2eq], ?_, ?_, ?_, ?_, ?_, h2Inv⟩
  · rw [h2notes, hup]
  · rw [h2fts, hup]
  · rw [h2nn, hup]
  · obtain ⟨l, hl, hnames⟩ := h2tagsE
    refine ⟨l, ?_, hnames⟩
    rw [hl, hup]
  · obtain ⟨pairs, hp, hall⟩ := h2pairsE
    refine ⟨pairs, ?_, hall⟩
    rw [hp, hup]

theorem update_note_missing_nil (db : DB) (nid : Nat) (title content now : Str)
    (hInv : Inv db) (h : nid ∉ noteIds db) :
    update_note db nid title content [] now = .ok db := by
  have hmiss : ∀ n ∈ db.notes, n.id ≠ nid := by
    intro n hn he
    exact h (he ▸ List.mem_map_of_mem Note.id hn)
  have hfilter : (db.noteTags.filter fun p => p.1 ≠ nid) = db.noteTags := by
    rw [List.filter_eq_self]
    intro p hp
    have := hInv.ntRefN p hp
    simp only [decide_eq_true_eq]
    intro he
    exact h (he ▸ this)
  simp only [update_note, set_note_tags, notesUpdate_miss db nid _ hmiss]
  rw [hfilter]
  rfl

theorem update_note_missing_cons (db : DB) (nid : Nat) (title content now : Str)
    (name : Str) (rest : List Str) (h : nid ∉ noteIds db) :
    update_note db nid title content (name :: rest) now = .error .fkViolation := by
  have hg : ∀ n : Note, (updatedNote title content now n).id = n.id := fun n => rfl
  have hids : nid ∉ noteIds
      { (notesUpdate db nid (updatedNote title content now)) with
        noteTags := (notesUpdate db nid (updatedNote title content now)).noteTags.filter
          fun p => p.1 ≠ nid } := by
    show nid ∉ noteIds (notesUpdate db nid (updatedNote title content now))
    unfold noteIds notesUpdate
    rw [map_key_ite Note.id _ hg nid db.notes]
    exact h
  have hrun : update_note db nid title content (name :: rest) now =
      set_note_tags (notesUpdate db nid (updatedNote title content now)) nid
        (name :: rest) := rfl
  rw [hrun]
  exact setTagsLoop_err name rest _ nid hids

theorem toggle_pin_inv (db : DB) (nid : Nat) (now : Str) (hInv : Inv db) :
    Inv (toggle_pin db nid now) := by
  unfold toggle_pin
  exact notesUpdate_inv _ nid _ (fun n => rfl)
    (notesUpdate_inv db nid _ (fun n => rfl) hInv)

theorem applyOp_inv (op : Op) (db : DB) (hInv : Inv db) : Inv (applyOp op db) := by
  cases op with
  | create title content tags now =>
    obtain ⟨db2, heq, -, -, -, -, -, h2Inv⟩ := create_note_spec db title content tags now hInv
    simp only [applyOp, scopedExec, Op.run, heq, Except.map]
    exact h2Inv
  | update nid title content tags now =>
    by_cases hhit : ∃ a ∈ db.notes, a.id = nid
    · obtain ⟨a, ha, hkey⟩ := hhit
      obtain ⟨db2, heq, -, -, -, -, -, h2Inv⟩ :=
        update_note_spec db nid title content tags now hInv a ha hkey
      simp only [applyOp, scopedExec, Op.run, heq]
      exact h2Inv
    · have hmiss : nid ∉ noteIds db := by
        intro hmem
        obtain ⟨n, hn, heq⟩ := List.mem_map.mp hmem
        exact hhit ⟨n, hn, heq⟩
      cases tags with
      | nil =>
        have heq := update_note_missing_nil db nid title content now hInv hmiss
        simp only [applyOp, scopedExec, Op.run, heq]
        exact hInv
      | cons name rest =>
        have heq := update_note_missing_cons db nid title content now name rest hmiss
        simp only [applyOp, scopedExec, Op.run, heq]
        exact hInv
  | delete nid =>
    simp only [applyOp, scopedExec, Op.run]
    exact notesDelete_inv db nid hInv
  | togglePin nid now =>
    simp only [applyOp, scopedExec, Op.run]
    exact toggle_pin_inv db nid now hInv

theorem foldl_inv : ∀ (ops : List Op) (db : DB), Inv db →
    Inv (ops.foldl (fun db op => applyOp op db) db)
  | [], _, h => h
  | op :: ops, db, h => foldl_inv ops (applyOp op db) (applyOp_inv op db h)

theorem reachable_inv (db : DB) (h : Reachable db) : Inv db := by
  obtain ⟨ops, rfl⟩ := h
  exact foldl_inv ops initDB inv_initDB

theorem isLowerStr_take (s : Str) (k : Nat) (h : isLowerStr s = true) :
    isLowerStr (s.take k) = true := by
  unfold isLowerStr at *
  rw [List.all_eq_true] at *
  intro c hc
  exact h c (List.take_subset k s hc)

theorem dedupTags_fresh : ∀ (items seen : List Str),
    (∀ t ∈ dedupTags items seen, t ∉ seen) ∧ (dedupTags items seen).Nodup
  | [], _ => ⟨by simp [dedupTags], by simp [dedupTags]⟩
  | t :: rest, seen => by
    by_cases ht : pyTruthy t = true
    · by_cases hseen : (if t.length > 32 then t.take 32 else t) ∈ seen
      · have heq : dedupTags (t :: rest) seen = dedupTags rest seen := by
          simp only [dedupTags]
          rw [if_pos ht, if_pos hseen]
        rw [heq]
        exact dedupTags_fresh rest seen
      · have heq : dedupTags (t :: rest) seen =
            (if t.length > 32 then t.take 32 else t) ::
              dedupTags rest ((if t.length > 32 then t.take 32 else t) :: seen) := by
          simp only [dedupTags]
          rw [if_pos ht, if_neg hseen]
        rw [heq]
        obtain ⟨hfresh, hnd⟩ := dedupTags_fresh rest
          ((if t.length > 32 then t.take 32 else t) :: seen)
        constructor
        · intro u hu
          rcases List.mem_cons.mp hu with rfl | hu
          · exact hseen
          · intro hmem
            exact hfresh u hu (List.mem_cons_of_mem _ hmem)
        · rw [List.nodup_cons]
          refine ⟨?_, hnd⟩
          intro hmem
          exact hfresh _ hmem (List.mem_cons_self _ _)
    · have heq : dedupTags (t :: rest) seen = dedupTags rest seen := by
        simp only [dedupTags]
        rw [if_neg ht]
      rw [heq]
      exact dedupTags_fresh rest seen

theorem dedupTags_mem : ∀ (items seen : List Str) (u : Str), u ∈ dedupTags items seen →
    ∃ t ∈ items, pyTruthy t = true ∧ u = if t.length > 32 then t.take 32 else t
  | [], _, u, hu => absurd hu (by simp [dedupTags])
  | t :: rest, seen, u, hu => by
    by_cases ht : pyTruthy t = true
    · by_cases hseen : (if t.length > 32 then t.take 32 else t) ∈ seen
      · have heq : dedupTags (t :: rest) seen = dedupTags rest seen := by
          simp only [dedupTags]
          rw [if_pos ht, if_pos hseen]
        rw [heq] at hu
        obtain ⟨x, hx, hx2, hx3⟩ := dedupTags_mem rest seen u hu
        exact ⟨x, List.mem_cons_of_mem t hx, hx2, hx3⟩
      · have heq : dedupTags (t :: rest) seen =
            (if t.length > 32 then t.take 32 else t) ::
              dedupTags rest ((if t.length > 32 then t.take 32 else t) :: seen) := by
          simp only [dedupTags]
          rw [if_pos ht, if_neg hseen]
        rw [heq] at hu
        rcases List.mem_cons.mp hu with rfl | hu
        · exact ⟨t, List.mem_cons_self t rest, ht, rfl⟩
        · obtain ⟨x, hx, hx2, hx3⟩ := dedupTags_mem rest _ u hu
          exact ⟨x, List.mem_cons_of_mem t hx, hx2, hx3⟩
    · have heq : dedupTags (t :: rest) seen = dedupTags rest seen := by
        simp only [dedupTags]
        rw [if_neg ht]
      rw [heq] at hu
      obtain ⟨x, hx, hx2, hx3⟩ := dedupTags_mem rest seen u hu
      exact ⟨x, List.mem_cons_of_mem t hx, hx2, hx3⟩

/-- C4: parse_tags splits on ASCII and full-width commas, trims, lowercases,
truncates to 32 characters, drops empty tokens and deduplicates preserving
first-seen order; hence its output never has duplicates, every entry is
nonempty, at most 32 characters and lowercase, it never raises on any input
(it is a total function), and parse_tags "Study, Demo, study" is exactly
["study", "demo"]. -/
theorem c4_parse_tags_normalizes :
    (∀ raw : Str, (parse_tags raw).Nodup ∧
      ∀ u ∈ parse_tags raw, u ≠ [] ∧ u.length ≤ 32 ∧ isLowerStr u = true) ∧
    parse_tags (str "Study, Demo, study") = [str "study", str "demo"] := by
  constructor
  · intro raw
    by_cases hraw : pyTruthy raw = true
    · have heq : parse_tags raw =
          dedupTags ((splitChar ',' (raw.map fun c => if c = '，' then ',' else c)).map
            (fun t => pyLower (pyStrip t))) [] := by
        simp only [parse_tags]
        rw [if_pos hraw]
      rw [heq]
      refine ⟨(dedupTags_fresh _ _).2, ?_⟩
      intro u hu
      obtain ⟨t, ht, htt, hut⟩ := dedupTags_mem _ _ u hu
      obtain ⟨x, hx, hxt⟩ := List.mem_map.mp ht
      have hlow : isLowerStr t = true := hxt ▸ pyLower_isLower (pyStrip x)
      have hne : t ≠ [] := by
        intro he
        rw [he] at htt
        exact absurd htt (by simp [pyTruthy])
      subst hut
      by_cases hlen : t.length > 32
      · rw [if_pos hlen]
        refine ⟨?_, ?_, isLowerStr_take t 32 hlow⟩
        · intro he
          rcases List.take_eq_nil_iff.mp he with h32 | h32
          · exact absurd h32 (by omega)
          · exact hne h32
        · rw [List.length_take]
          exact Nat.min_le_left 32 t.length
      · rw [if_neg hlen]
        exact ⟨hne, by omega, hlow⟩
    · have heq : parse_tags raw = [] := by
        simp only [parse_tags]
        rw [if_neg hraw]
      rw [heq]
      exact ⟨List.nodup_nil, by simp⟩
  · rfl

/-- C4 witness: the theorem applied at the concrete example input. -/
theorem c4_witness : (parse_tags (str "Study, Demo, study")).Nodup ∧
    str "study" ≠ [] ∧ (str "study").length ≤ 32 ∧ isLowerStr (str "study") = true :=
  ⟨(c4_parse_tags_normalizes.1 (str "Study, Demo, study")).1,
   (c4_parse_tags_normalizes.1 (str "Study, Demo, study")).2 (str "study")
     (by rw [c4_parse_tags_normalizes.2]; exact List.mem_cons_self _ _)⟩

/-- C10: passing the empty string as the tag filter of list_notes is the same
as passing no filter at all, because the empty string is falsy in the
`if tag:` branch test. -/
theorem c10_empty_tag_filter (db : DB) (limit : Nat) :
    list_notes db (some []) limit = list_notes db none limit := rfl

/-- C3 counterexample: on the empty database (note id 1 does not exist),
update_note with a nonempty tag list is not a silent no-op: the note_tags
insert violates the foreign key on notes and raises. -/
theorem c3_counterexample :
    update_note initDB 1 (str "t") (str "c") [str "x"] (str "T") =
      .error .fkViolation := by
  rfl

/-- C3 amended: update_note on a missing note id is a silent no-op only when
the tag list is empty; with a nonempty tag list the note_tags insert raises a
foreign-key violation (after which the scoped connection rolls back, so the
persisted state is unchanged in every case). -/
theorem c3_update_missing_id (db : DB) (nid : Nat) (title content now : Str)
    (hInv : Inv db) (h : nid ∉ noteIds db) :
    update_note db nid title content [] now = .ok db ∧
    (∀ (name : Str) (rest : List Str),
      update_note db nid title content (name :: rest) now = .error .fkViolation) ∧
    (∀ tags, applyOp (.update nid title content tags now) db = db) := by
  refine ⟨update_note_missing_nil db nid title content now hInv h, ?_, ?_⟩
  · intro name rest
    exact update_note_missing_cons db nid title content now name rest h
  · intro tags
    cases tags with
    | nil =>
      simp only [applyOp, scopedExec, Op.run,
        update_note_missing_nil db nid title content now hInv h]
    | cons name rest =>
      simp only [applyOp, scopedExec, Op.run,
        update_note_missing_cons db nid title content now name rest h]

/-- C3 witness: the amended theorem applied on the empty database at id 1. -/
theorem c3_witness :
    update_note initDB 1 (str "t") (str "c") [] (str "T") = .ok initDB ∧
    applyOp (.update 1 (str "t") (str "c") [str "x"] (str "T")) initDB = initDB := by
  have h := c3_update_missing_id initDB 1 (str "t") (str "c") (str "T") inv_initDB
    (by decide)
  exact ⟨h.1, h.2.2 [str "x"]⟩

/-- C6: the scoped connection commits only on success; when the transaction
body raises, the error propagates to the caller unchanged and the persisted
state is exactly the state before the operation. In particular the tag row
that _ensure_tag inserts before the failing note_tags insert of an
update_note on a missing id is rolled back. -/
theorem c6_scoped_rollback :
    (∀ (op : DB → Except SqlErr DB) (db : DB) (e : SqlErr), op db = .error e →
      scopedExec op db = (.error e, db)) ∧
    (update_note initDB 1 (str "t") (str "c") [str "x"] (str "T") =
        .error .fkViolation ∧
      (ensureTag initDB (str "x")).1.tags ≠ initDB.tags ∧
      scopedExec (fun db => update_note db 1 (str "t") (str "c") [str "x"] (str "T"))
        initDB = (.error .fkViolation, initDB)) := by
  refine ⟨?_, by rfl, by decide, by rfl⟩
  intro op db e h
  unfold scopedExec
  rw [h]

/-- C6 witness: the rollback law applied to a concrete failing transaction. -/
theorem c6_witness :
    scopedExec (fun db => update_note db 1 (str "t") (str "c") [str "x"] (str "T"))
      initDB = (.error .fkViolation, initDB) :=
  c6_scoped_rollback.1 _ initDB .fkViolation (by rfl)

/-- C7: list_notes output (with or without tag filter, any limit) places
pinned notes before unpinned ones and sorts each group by updated timestamp
descending; in particular with three notes of which exactly the middle one is
pinned, the pinned one is returned first whatever the timestamps are. -/
theorem c7_list_notes_order :
    (∀ (db : DB) (tag : Option Str) (limit : Nat),
      (list_notes db tag limit).Pairwise fun a b => summLe a b = true) ∧
    (∀ (db : DB) (n1 n2 n3 : Note), db.notes = [n1, n2, n3] →
      n1.pinned = false → n2.pinned = true → n3.pinned = false →
      (list_notes db none 10).head? = some (mkSummary db 160 n2)) := by
  constructor
  · intro db tag limit
    have hsorted : ∀ base : List Note, (sortBy noteLe base).Pairwise
        fun a b => noteLe a b = true :=
      sortBy_pairwise noteLe (fun a b c => noteLe_trans a b c) noteLe_total
    have hsub : ∀ base : List Note, ((sortBy noteLe base).take limit).Pairwise
        fun a b => noteLe a b = true :=
      fun base => (hsorted base).sublist (List.take_sublist limit _)
    show (((sortBy noteLe (if tagActive tag = true then _ else db.notes)).take
      limit).map (mkSummary db 160)).Pairwise fun a b => summLe a b = true
    rw [List.pairwise_map]
    exact (hsub _).imp fun h => h
  · intro db n1 n2 n3 hnotes h1 h2 h3
    have hln : list_notes db none 10 =
        ((sortBy noteLe db.notes).take 10).map (mkSummary db 160) := rfl
    rw [hnotes] at hln
    have hmem : n2 ∈ sortBy noteLe [n1, n2, n3] :=
      (mem_sortBy noteLe n2 _).mpr (by simp)
    have hlen : (sortBy noteLe [n1, n2, n3]).length = 3 := by
      rw [length_sortBy]
      rfl
    have hpair : (sortBy noteLe [n1, n2, n3]).Pairwise
        fun a b => noteLe a b = true :=
      sortBy_pairwise noteLe (fun a b c => noteLe_trans a b c) noteLe_total _
    cases hL : sortBy noteLe [n1, n2, n3] with
    | nil =>
      rw [hL] at hlen
      simp at hlen
    | cons s rest =>
      rw [hL] at hmem hpair
      obtain ⟨hhead, -⟩ := List.pairwise_cons.mp hpair
      have hs_mem : s ∈ [n1, n2, n3] :=
        (mem_sortBy noteLe s _).mp (hL ▸ List.mem_cons_self s rest)
      have hs : s = n2 := by
        have hnotpin : ∀ x : Note, x.pinned = false → s = x → False := by
          intro x hx hsx
          have hn2rest : n2 ∈ rest := by
            rcases List.mem_cons.mp hmem with he | he
            · rw [he, hsx] at h2
              rw [hx] at h2
              exact absurd h2 (by simp)
            · exact he
          have hle := hhead n2 hn2rest
          unfold noteLe at hle
          rw [hsx, hx, h2] at hle
          simp at hle
        simp only [List.mem_cons, List.mem_singleton, List.not_mem_nil, or_false] at hs_mem
        rcases hs_mem with h | h | h
        · exact (hnotpin n1 h1 h).elim
        · exact h
        · exact (hnotpin n3 h3 h).elim
      subst hs
      rw [hln, hL, List.take_succ_cons, List.map_cons, List.head?_cons]

/-- C7 witness: the ordering law and the three-note scenario at a concrete
state (middle note pinned, out-of-order timestamps). -/
theorem c7_witness :
    (list_notes ⟨[⟨1, str "a", str "", false, str "T1", str "T9"⟩,
        ⟨2, str "b", str "", true, str "T2", str "T2"⟩,
        ⟨3, str "c", str "", false, str "T3", str "T5"⟩], [], [], [], 4, 1⟩
      none 10).head? =
      some (mkSummary ⟨[⟨1, str "a", str "", false, str "T1", str "T9"⟩,
        ⟨2, str "b", str "", true, str "T2", str "T2"⟩,
        ⟨3, str "c", str "", false, str "T3", str "T5"⟩], [], [], [], 4, 1⟩ 160
        ⟨2, str "b", str "", true, str "T2", str "T2"⟩) :=
  c7_list_notes_order.2 _ _ _ _ rfl rfl rfl rfl

theorem noteTagsInsert_tags (db : DB) (nid tid : Nat) (db2 : DB)
    (h : noteTagsInsert db nid tid = .ok db2) : db2.tags = db.tags := by
  unfold noteTagsInsert at h
  by_cases hc : (db.notes.any fun n => n.id = nid) ∧ (db.tags.any fun t => t.id = tid)
  · rw [if_pos hc] at h
    obtain rfl := Except.ok.inj h
    by_cases hmem : (nid, tid) ∈ db.noteTags
    · rw [if_pos hmem]
    · rw [if_neg hmem]
  · rw [if_neg hc] at h
    exact absurd h (by simp)

theorem setTagsLoop_tags_mono : ∀ (tags : List Str) (db : DB) (nid : Nat) (db2 : DB),
    setTagsLoop nid tags db = .ok db2 →
      ∃ l, db2.tags = db.tags ++ l ∧ ∀ t ∈ l, t.name ∈ tags
  | [], db, nid, db2, h => by
    obtain rfl := Except.ok.inj h
    exact ⟨[], by simp, by simp⟩
  | name :: rest, db, nid, db2, h => by
    simp only [setTagsLoop] at h
    cases hres : noteTagsInsert (ensureTag db name).1 nid (ensureTag db name).2 with
    | ok dbI =>
      rw [hres] at h
      obtain ⟨l2, hl2, hn2⟩ := setTagsLoop_tags_mono rest dbI nid db2 h
      obtain ⟨lE, hlE, hnE⟩ := ensureTag_tags_append db name
      refine ⟨lE ++ l2, ?_, ?_⟩
      · rw [hl2, noteTagsInsert_tags _ nid _ dbI hres, hlE, List.append_assoc]
      · intro t ht
        rcases List.mem_append.mp ht with ht | ht
        · rw [hnE t ht]
          exact List.mem_cons_self name rest
        · exact List.mem_cons_of_mem name (hn2 t ht)
    | error e =>
      rw [hres] at h
      exact absurd h (by simp)

theorem opRun_tags_mono (op : Op) (db db2 : DB) (h : op.run db = .ok db2) :
    ∃ l, db2.tags = db.tags ++ l ∧ ∀ t ∈ l, t.name ∈ op.tagArgs := by
  cases op with
  | create title content tags now =>
    simp only [Op.run, create_note, set_note_tags, notesInsert] at h
    cases hres : setTagsLoop (db.nextNoteId) tags
        { db with
            notes := db.notes ++ [⟨db.nextNoteId, pyOrStr (pyStrip title) (str "Untitled"),
              pyOrStr content [], false, now, now⟩]
            fts := db.fts ++ [mirror ⟨db.nextNoteId, pyOrStr (pyStrip title) (str "Untitled"),
              pyOrStr content [], false, now, now⟩]
            nextNoteId := db.nextNoteId + 1
            noteTags := db.noteTags.filter fun p => p.1 ≠ db.nextNoteId } with
    | ok d =>
      rw [hres] at h
      simp only [Except.map] at h
      obtain rfl := Except.ok.inj h
      obtain ⟨l, hl, hn⟩ := setTagsLoop_tags_mono tags _ db.nextNoteId d hres
      exact ⟨l, hl, hn⟩
    | error e =>
      rw [hres] at h
      exact absurd h (by simp [Except.map])
  | update nid title content tags now =>
    simp only [Op.run, update_note, set_note_tags] at h
    obtain ⟨l, hl, hn⟩ := setTagsLoop_tags_mono tags _ nid db2 h
    exact ⟨l, hl, hn⟩
  | delete nid =>
    simp only [Op.run] at h
    obtain rfl := Except.ok.inj h
    exact ⟨[], by simp [delete_note, notesDelete], by simp⟩
  | togglePin nid now =>
    simp only [Op.run] at h
    obtain rfl := Except.ok.inj h
    exact ⟨[], by simp [toggle_pin, notesUpdate], by simp⟩

/-- C9: no repository operation removes tags-table rows (every operation
leaves the old rows as a prefix); after delete_note of the only note
referencing a tag the tag row survives and list_tags reports it with count
zero; and list_tags is ordered by count descending then name ascending. -/
theorem c9_tags_never_deleted :
    (∀ (op : Op) (db : DB), ∃ l, (applyOp op db).tags = db.tags ++ l) ∧
    (∀ (db : DB) (nid : Nat) (tg : Tag), tg ∈ db.tags →
      (∀ p ∈ db.noteTags, p.2 = tg.id → p.1 = nid) →
      tg ∈ (delete_note db nid).tags ∧ (tg.name, 0) ∈ list_tags (delete_note db nid)) ∧
    (∀ db : DB, (list_tags db).Pairwise fun a b => tagLe a b = true) := by
  refine ⟨?_, ?_, ?_⟩
  · intro op db
    unfold applyOp scopedExec
    cases hrun : op.run db with
    | ok d =>
      obtain ⟨l, hl, -⟩ := opRun_tags_mono op db d hrun
      exact ⟨l, hl⟩
    | error e => exact ⟨[], by simp⟩
  · intro db nid tg htg href
    refine ⟨htg, ?_⟩
    have hcnt : (((delete_note db nid).noteTags.filter fun p => p.2 = tg.id)).length = 0 := by
      have : ((delete_note db nid).noteTags.filter fun p => p.2 = tg.id) = [] := by
        rw [List.filter_eq_nil_iff]
        intro p hp
        simp only [decide_eq_true_eq]
        intro he
        obtain ⟨hp1, hp2⟩ := List.mem_filter.mp hp
        simp only [decide_eq_true_eq] at hp2
        exact hp2 (href p hp1 he)
      rw [this]
      rfl
    unfold list_tags
    rw [mem_sortBy]
    refine List.mem_map.mpr ⟨tg, htg, ?_⟩
    rw [hcnt]
  · intro db
    exact sortBy_pairwise tagLe (fun a b c => tagLe_trans a b c) tagLe_total _

/-- C9 witness: the delete scenario on a one-note, one-tag database. -/
theorem c9_witness :
    Tag.mk 1 (str "t1") ∈
        (delete_note (runOps [.create (str "n") (str "c") [str "t1"] (str "T")]) 1).tags ∧
      (str "t1", 0) ∈ list_tags
        (delete_note (runOps [.create (str "n") (str "c") [str "t1"] (str "T")]) 1) :=
  c9_tags_never_deleted.2.1 (runOps [.create (str "n") (str "c") [str "t1"] (str "T")])
    1 (Tag.mk 1 (str "t1")) (by decide) (by decide)

theorem find_tag_stable (l lE : List Tag) (tid : Nat) (h : tid ∈ l.map Tag.id) :
    ((l ++ lE).find? fun t => t.id = tid) = l.find? fun t => t.id = tid := by
  obtain ⟨tg, htg, heq⟩ := List.mem_map.mp h
  have hsome : (l.find? fun t => t.id = tid).isSome := by
    rw [List.find?_isSome]
    exact ⟨tg, htg, by simp [heq]⟩
  rw [List.find?_append]
  obtain ⟨x, hx⟩ := Option.isSome_iff_exists.mp hsome
  rw [hx]
  rfl

theorem mem_key_inj {α κ : Type} [DecidableEq κ] (key : α → κ) (l : List α)
    (hnd : (l.map key).Nodup) (a b : α) (ha : a ∈ l) (hb : b ∈ l) (hk : key a = key b) :
    a = b := by
  have h1 := find_by_key key l a hnd ha
  have h2 := find_by_key key l b hnd hb
  have hpred : (fun x => decide (key x = key a)) = fun x => decide (key x = key b) := by
    funext x
    rw [hk]
  rw [hpred] at h1
  rw [h1] at h2
  exact Option.some.inj h2

theorem setTagsLoop_names : ∀ (tags : List Str) (db : DB) (nid : Nat),
    TagInv db → nid ∈ noteIds db → (∀ p ∈ db.noteTags, p.2 ∈ tagIds db) →
    tags.Nodup → (∀ name ∈ tags, name ∉ assocNames db nid) →
    ∃ db2, setTagsLoop nid tags db = .ok db2 ∧
      assocNames db2 nid = assocNames db nid ++ tags
  | [], db, nid, _, _, _, _, _ => ⟨db, rfl, by simp⟩
  | name :: rest, db, nid, hTag, hnid, hRef, hNd, hFresh => by
    obtain ⟨hEnotes, hEfts, hEnt, hEnn⟩ := ensureTag_fields db name
    have hTagE := ensureTag_tagInv db name hTag
    obtain ⟨tg, htg_mem, htg_name, htid⟩ := ensureTag_found db name
    obtain ⟨lE, hlE, hlEAll⟩ := ensureTag_tags_append db name
    have htid_mem : (ensureTag db name).2 ∈ tagIds (ensureTag db name).1 :=
      htid ▸ List.mem_map_of_mem Tag.id htg_mem
    have hnidE : nid ∈ noteIds (ensureTag db name).1 := by
      unfold noteIds
      rw [hEnotes]
      exact hnid
    have hassocE : assocNames (ensureTag db name).1 nid = assocNames db nid := by
      unfold assocNames
      rw [hEnt]
      apply List.filterMap_congr
      intro p hp
      have hp2 : p.2 ∈ tagIds db := hRef p (List.mem_of_mem_filter hp)
      rw [hlE, find_tag_stable db.tags lE p.2 hp2]
    have hfind : ((ensureTag db name).1.tags.find? fun t =>
        t.id = (ensureTag db name).2) = some tg := by
      have := find_by_key Tag.id (ensureTag db name).1.tags tg hTagE.1 htg_mem
      have hpred : (fun t : Tag => decide (t.id = (ensureTag db name).2)) =
          fun t : Tag => decide (t.id = tg.id) := by
        funext t
        rw [htid]
      rw [hpred]
      exact this
    have hfreshPair : (nid, (ensureTag db name).2) ∉ (ensureTag db name).1.noteTags := by
      rw [hEnt]
      intro hmem
      apply hFresh name (List.mem_cons_self name rest)
      have htid_db : (ensureTag db name).2 ∈ tagIds db := hRef _ hmem
      obtain ⟨tg0, htg0, hid0⟩ := List.mem_map.mp htid_db
      have htg0E : tg0 ∈ (ensureTag db name).1.tags := by
        rw [hlE]
        exact List.mem_append_left _ htg0
      have : tg0 = tg :=
        mem_key_inj Tag.id (ensureTag db name).1.tags hTagE.1 tg0 tg htg0E htg_mem
          (by rw [hid0, htid])
      subst this
      unfold assocNames
      refine List.mem_filterMap.mpr ⟨(nid, (ensureTag db name).2), ?_, ?_⟩
      · exact List.mem_filter.mpr ⟨hmem, by simp⟩
      · have hfind0 : (db.tags.find? fun t => t.id = (ensureTag db name).2) = some tg0 := by
          have := find_by_key Tag.id db.tags tg0 hTag.1 htg0
          have hpred : (fun t : Tag => decide (t.id = (ensureTag db name).2)) =
              fun t : Tag => decide (t.id = tg0.id) := by
            funext t
            rw [hid0]
          rw [hpred]
          exact this
        rw [hfind0]
        show some tg0.name = some name
        rw [htg_name]
    obtain ⟨dbI, hIeq, hInotes, hItags, hIfts, hInn, hIntid, ⟨lp, hlp, -, hlpFresh⟩, -⟩ :=
      noteTagsInsert_ok (ensureTag db name).1 nid (ensureTag db name).2 hnidE htid_mem
    have hlpEq : lp = [(nid, (ensureTag db name).2)] := hlpFresh hfreshPair
    subst hlpEq
    have hassocI : assocNames dbI nid = assocNames (ensureTag db name).1 nid ++ [name] := by
      unfold assocNames
      rw [hlp, hItags, List.filter_append, List.filterMap_append]
      congr 1
      rw [List.filter_cons_of_pos (by simp), List.filter_nil]
      simp only [List.filterMap_cons, List.filterMap_nil]
      rw [hfind]
      show [tg.name] = [name]
      rw [htg_name]
    have hTagI : TagInv dbI := by
      obtain ⟨ha, hb, hc⟩ := hTagE
      refine ⟨?_, ?_, ?_⟩
      · unfold tagIds
        rw [hItags]
        exact ha
      · unfold tagNames
        rw [hItags]
        exact hb
      · rw [hItags, hIntid]
        exact hc
    have hnidI : nid ∈ noteIds dbI := by
      unfold noteIds
      rw [hInotes, hEnotes]
      exact hnid
    have hRefI : ∀ p ∈ dbI.noteTags, p.2 ∈ tagIds dbI := by
      intro p hp
      rw [hlp] at hp
      have htagsEq : tagIds dbI = tagIds (ensureTag db name).1 := by
        unfold tagIds
        rw [hItags]
      rcases List.mem_append.mp hp with hp | hp
      · rw [hEnt] at hp
        have := hRef p hp
        rw [htagsEq]
        unfold tagIds at this ⊢
        rw [hlE, List.map_append]
        exact List.mem_append_left _ this
      · rw [List.mem_singleton] at hp
        subst hp
        rw [htagsEq]
        exact htid_mem
    obtain ⟨hname_rest, hNdRest⟩ := List.nodup_cons.mp hNd
    have hFreshI : ∀ name2 ∈ rest, name2 ∉ assocNames dbI nid := by
      intro name2 h2 hmem
      rw [hassocI, hassocE] at hmem
      rcases List.mem_append.mp hmem with hmem | hmem
      · exact hFresh name2 (List.mem_cons_of_mem name h2) hmem
      · rw [List.mem_singleton] at hmem
        subst hmem
        exact hname_rest h2
    obtain ⟨db2, h2eq, h2assoc⟩ := setTagsLoop_names rest dbI nid hTagI hnidI hRefI
      hNdRest hFreshI
    refine ⟨db2, ?_, ?_⟩
    · simp only [setTagsLoop]
      rw [hIeq]
      exact h2eq
    · rw [h2assoc, hassocI, hassocE, List.append_assoc]
      rfl

theorem pyOrStr_nil (a : Str) : pyOrStr a [] = a := by
  unfold pyOrStr pyTruthy
  cases a with
  | nil => simp
  | cons c cs => simp

/-- C2: create_note followed by get_note on the returned id yields the note
with the trimmed (or defaulted) title, the content exactly as passed, both
timestamps stamped to the call time, and the tag list equal to the input
tag list as a set, returned sorted alphabetically. -/
theorem c2_create_get_roundtrip (db : DB) (title content : Str) (tags : List Str)
    (now : Str) (hReach : Reachable db) (hNd : tags.Nodup) :
    ∃ db2, create_note db title content tags now = .ok (db2, db.nextNoteId) ∧
      get_note db2 db.nextNoteId = some
        ⟨db.nextNoteId, pyOrStr (pyStrip title) (str "Untitled"), content, false, now, now,
          sortBy lexLe tags⟩ ∧
      (sortBy lexLe tags).Perm tags ∧
      ((sortBy lexLe tags).Pairwise fun a b => lexLe a b = true) := by
  have hInv := reachable_inv db hReach
  have hfresh : ∀ p ∈ db.noteTags, p.1 ≠ db.nextNoteId := by
    intro p hp
    obtain ⟨n, hn, heq⟩ := List.mem_map.mp (hInv.ntRefN p hp)
    have := hInv.notesLt n hn
    omega
  have hrun : create_note db title content tags now =
      (setTagsLoop db.nextNoteId tags
        { db with
            notes := db.notes ++ [storedNote db title content now]
            fts := db.fts ++ [mirror (storedNote db title content now)]
            nextNoteId := db.nextNoteId + 1
            noteTags := db.noteTags.filter fun p => p.1 ≠ db.nextNoteId }).map
        fun d => (d, db.nextNoteId) := by
    simp only [create_note, set_note_tags, notesInsert, storedNote]
  have hTagF : TagInv
      { db with
          notes := db.notes ++ [storedNote db title content now]
          fts := db.fts ++ [mirror (storedNote db title content now)]
          nextNoteId := db.nextNoteId + 1
          noteTags := db.noteTags.filter fun p => p.1 ≠ db.nextNoteId } := hInv.tagInv
  have hnidF : db.nextNoteId ∈ noteIds
      { db with
          notes := db.notes ++ [storedNote db title content now]
          fts := db.fts ++ [mirror (storedNote db title content now)]
          nextNoteId := db.nextNoteId + 1
          noteTags := db.noteTags.filter fun p => p.1 ≠ db.nextNoteId } := by
    unfold noteIds
    simp [storedNote]
  have hRefF : ∀ p ∈ (db.noteTags.filter fun p => p.1 ≠ db.nextNoteId),
      p.2 ∈ tagIds db := by
    intro p hp
    exact hInv.ntRefT p (List.mem_of_mem_filter hp)
  have hassocF : assocNames
      { db with
          notes := db.notes ++ [storedNote db title content now]
          fts := db.fts ++ [mirror (storedNote db title content now)]
          nextNoteId := db.nextNoteId + 1
          noteTags := db.noteTags.filter fun p => p.1 ≠ db.nextNoteId }
      db.nextNoteId = [] := by
    unfold assocNames
    have hnil : ((db.noteTags.filter fun p => p.1 ≠ db.nextNoteId).filter
        fun p => p.1 = db.nextNoteId) = [] := by
      rw [List.filter_eq_nil_iff]
      intro p hp
      obtain ⟨hp1, hp2⟩ := List.mem_filter.mp hp
      simp only [decide_eq_true_eq] at hp2 ⊢
      exact hp2
    rw [hnil]
    rfl
  obtain ⟨dbS, hSeq, hSassoc⟩ := setTagsLoop_names tags _ db.nextNoteId hTagF hnidF
    hRefF hNd (by rw [hassocF]; simp)
  obtain ⟨dbT, hS2eq, hS2notes, hS2fts, hS2nn, hS2Tag, -, -, -⟩ :=
    setTagsLoop_ok tags _ db.nextNoteId hTagF hnidF
  rw [hSeq] at hS2eq
  obtain rfl : dbS = dbT := Except.ok.inj hS2eq
  have hfind : (dbS.notes.find? fun n => n.id = db.nextNoteId) =
      some (storedNote db title content now) := by
    rw [hS2notes]
    show ((db.notes ++ [storedNote db title content now]).find?
      fun n => n.id = db.nextNoteId) = _
    rw [List.find?_append]
    have hnone : (db.notes.find? fun n => n.id = db.nextNoteId) = none := by
      rw [List.find?_eq_none]
      intro n hn
      simp only [decide_eq_true_eq]
      have := hInv.notesLt n hn
      omega
    rw [hnone]
    simp [storedNote]
  have htags : tagsForNote dbS db.nextNoteId = sortBy lexLe tags := by
    unfold tagsForNote
    rw [hSassoc, hassocF]
    rfl
  refine ⟨dbS, ?_, ?_, sortBy_perm lexLe tags, ?_⟩
  · rw [hrun, hSeq]
    rfl
  · unfold get_note
    rw [hfind]
    simp only [Option.map_some']
    congr 1
    have hcontent : (storedNote db title content now).content = content :=
      pyOrStr_nil content
    simp only [storedNote] at hcontent ⊢
    rw [htags, hcontent]
  · exact sortBy_pairwise lexLe (fun a b c => lexLe_trans a b c) lexLe_total tags

/-- C2 witness: the round trip on the empty database with two unordered
tags. -/
theorem c2_witness :
    ∃ db2, create_note initDB (str " Hi ") (str "body") [str "b", str "a"] (str "T") =
        .ok (db2, 1) ∧
      get_note db2 1 = some ⟨1, str "Hi", str "body", false, str "T", str "T",
        sortBy lexLe [str "b", str "a"]⟩ ∧
      (sortBy lexLe [str "b", str "a"]).Perm [str "b", str "a"] ∧
      ((sortBy lexLe [str "b", str "a"]).Pairwise fun a b => lexLe a b = true) := by
  have h := c2_create_get_roundtrip initDB (str " Hi ") (str "body") [str "b", str "a"]
    (str "T") ⟨[], rfl⟩ (by decide)
  obtain ⟨db2, h1, h2, h3, h4⟩ := h
  refine ⟨db2, h1, ?_, h3, h4⟩
  exact h2

/-- C5 counterexample: the repository inserts tag names verbatim, so calling
create_note with a tag list that did not come from parse_tags produces a
reachable state whose tags table holds a non-lowercase name. -/
theorem c5_counterexample :
    ∃ t ∈ (runOps [.create (str "n") (str "c") [str "AB"] (str "T")]).tags,
      isLowerStr t.name = false := by decide

theorem applyOp_tags_cases (op : Op) (db : DB) :
    ∀ t ∈ (applyOp op db).tags, t ∈ db.tags ∨ t.name ∈ op.tagArgs := by
  intro t ht
  unfold applyOp scopedExec at ht
  cases hrun : op.run db with
  | ok d =>
    rw [hrun] at ht
    obtain ⟨l, hl, hn⟩ := opRun_tags_mono op db d hrun
    rw [hl] at ht
    rcases List.mem_append.mp ht with ht | ht
    · exact Or.inl ht
    · exact Or.inr (hn t ht)
  | error e =>
    rw [hrun] at ht
    exact Or.inl ht

theorem foldl_tags_norm : ∀ (ops : List Op) (db : DB),
    (∀ op ∈ ops, ∀ name ∈ op.tagArgs, isLowerStr name = true ∧ name.length ≤ 32) →
    (∀ t ∈ db.tags, isLowerStr t.name = true ∧ t.name.length ≤ 32) →
    ∀ t ∈ (ops.foldl (fun db op => applyOp op db) db).tags,
      isLowerStr t.name = true ∧ t.name.length ≤ 32
  | [], _, _, hdb, t, ht => hdb t ht
  | op :: ops, db, hops, hdb, t, ht => by
    refine foldl_tags_norm ops (applyOp op db) ?_ ?_ t ht
    · intro o ho
      exact hops o (List.mem_cons_of_mem op ho)
    · intro u hu
      rcases applyOp_tags_cases op db u hu with h | h
      · exact hdb u h
      · exact hops op (List.mem_cons_self op ops) u.name h

/-- C5 amended: the tags-table invariant (lowercase, at most 32 characters)
holds in every state reachable by operations whose tag-list arguments are
normalized (as every parse_tags output is, by C4); with arbitrary non-
normalized tag strings the repository stores them verbatim, and only the
global distinctness of tag names (the UNIQUE constraint) holds
unconditionally. -/
theorem c5_tag_rows_normalized (ops : List Op) :
    ((∀ op ∈ ops, ∀ name ∈ op.tagArgs, isLowerStr name = true ∧ name.length ≤ 32) →
      ∀ t ∈ (runOps ops).tags, isLowerStr t.name = true ∧ t.name.length ≤ 32) ∧
    (tagNames (runOps ops)).Nodup := by
  constructor
  · intro hnorm
    exact foldl_tags_norm ops initDB hnorm (by simp [initDB])
  · exact (reachable_inv (runOps ops) ⟨ops, rfl⟩).tagInv.2.1

/-- C5 witness: the amended invariant on a concrete normalized run. -/
theorem c5_witness :
    (∀ t ∈ (runOps [.create (str "n") (str "c") [str "ab"] (str "T")]).tags,
      isLowerStr t.name = true ∧ t.name.length ≤ 32) ∧
    (tagNames (runOps [.create (str "n") (str "c") [str "ab"] (str "T")])).Nodup :=
  ⟨(c5_tag_rows_normalized [.create (str "n") (str "c") [str "ab"] (str "T")]).1
    (by decide),
   (c5_tag_rows_normalized [.create (str "n") (str "c") [str "ab"] (str "T")]).2⟩

theorem excerptOf_long (cut : Nat) (content : Str) (hlen : cut < content.length)
    (hstrip : pyStrip content = content) :
    ∃ e, e.length = cut ∧ excerptOf cut content = e ++ ['…'] := by
  unfold excerptOf
  rw [hstrip]
  have hlen2 : (content.map fun c => if c = '\n' then ' ' else c).length =
      content.length := List.length_map content _
  rw [if_pos (by omega)]
  refine ⟨(content.map fun c => if c = '\n' then ' ' else c).take cut, ?_, rfl⟩
  rw [List.length_take, hlen2]
  omega

theorem list_notes_mem (db : DB) (tag : Option Str) (limit : Nat) (s : Summary)
    (h : s ∈ list_notes db tag limit) : ∃ m ∈ db.notes, s = mkSummary db 160 m := by
  unfold list_notes at h
  obtain ⟨m, hm, rfl⟩ := List.mem_map.mp h
  refine ⟨m, ?_, rfl⟩
  have h1 := List.take_subset limit _ hm
  rw [mem_sortBy] at h1
  by_cases hft : tagActive tag = true
  · rw [if_pos hft] at h1
    exact List.mem_of_mem_filter h1
  · rw [if_neg hft] at h1
    exact h1

theorem search_notes_mem (db : DB) (q : Str) (limit : Nat) (s : Summary)
    (h : s ∈ search_notes db q limit) : ∃ m ∈ db.notes, s = mkSummary db 180 m := by
  unfold search_notes at h
  by_cases hq : pyTruthy (pyStrip q) = true
  · rw [if_pos hq] at h
    have h2 := List.take_subset limit _ h
    obtain ⟨r, hr, hsome⟩ := List.mem_filterMap.mp h2
    cases hfind : (db.notes.find? fun n => n.id = r.rowid) with
    | none =>
      rw [hfind] at hsome
      exact absurd hsome (by simp)
    | some m =>
      rw [hfind] at hsome
      simp only [Option.map_some'] at hsome
      obtain rfl := Option.some.inj hsome
      exact ⟨m, List.mem_of_find?_eq_some hfind, rfl⟩
  · rw [if_neg hq] at h
    exact absurd h (List.not_mem_nil s)

/-- C8 counterexample: a note whose content is exactly 200 characters but
carries trailing whitespace is trimmed below the cutoff before truncation,
so its list excerpt is just "a" rather than 160 characters plus an ellipsis
marker. -/
theorem c8_counterexample :
    ∃ n ∈ (runOps [.create (str "T") ('a' :: List.replicate 199 ' ') []
        (str "TS")]).notes,
      n.content.length = 200 ∧
      ∃ s ∈ list_notes (runOps [.create (str "T") ('a' :: List.replicate 199 ' ') []
          (str "TS")]) none 200,
        s.id = n.id ∧ s.excerpt = ['a'] ∧ s.excerpt.length ≠ 161 := by
  decide

/-- C8 amended: for a note whose 200-character content equals its own trimmed
form (no leading or trailing whitespace), the list_notes excerpt is exactly
160 characters followed by the ellipsis marker and the search_notes excerpt
is exactly 180 characters followed by the marker, both computed from the
content with newlines replaced by spaces. -/
theorem c8_excerpt_truncation (db : DB) (n : Note) (tag : Option Str) (q : Str)
    (limit : Nat) (hnd : (noteIds db).Nodup) (hn : n ∈ db.notes)
    (hlen : n.content.length = 200) (hstrip : pyStrip n.content = n.content) :
    (∀ s ∈ list_notes db tag limit, s.id = n.id →
      ∃ e, e.length = 160 ∧ s.excerpt = e ++ ['…']) ∧
    (∀ s ∈ search_notes db q limit, s.id = n.id →
      ∃ e, e.length = 180 ∧ s.excerpt = e ++ ['…']) := by
  constructor
  · intro s hs hid
    obtain ⟨m, hm, rfl⟩ := list_notes_mem db tag limit s hs
    have hmn : m.id = n.id := hid
    obtain rfl := mem_key_inj Note.id db.notes hnd m n hm hn hmn
    exact excerptOf_long 160 m.content (by omega) hstrip
  · intro s hs hid
    obtain ⟨m, hm, rfl⟩ := search_notes_mem db q limit s hs
    have hmn : m.id = n.id := hid
    obtain rfl := mem_key_inj Note.id db.notes hnd m n hm hn hmn
    exact excerptOf_long 180 m.content (by omega) hstrip

/-- C8 witness: the amended truncation law on a 200-character whitespace-free
content. -/
theorem c8_witness :
    ∃ e, e.length = 160 ∧
      (mkSummary (runOps [.create (str "T") (List.replicate 200 'a') [] (str "TS")])
        160 ⟨1, str "T", List.replicate 200 'a', false, str "TS", str "TS"⟩).excerpt =
        e ++ ['…'] :=
  (c8_excerpt_truncation
    (runOps [.create (str "T") (List.replicate 200 'a') [] (str "TS")])
    ⟨1, str "T", List.replicate 200 'a', false, str "TS", str "TS"⟩ none (str "x") 200
    (by decide) (by decide) (by decide) (by decide)).1
    (mkSummary (runOps [.create (str "T") (List.replicate 200 'a') [] (str "TS")])
      160 ⟨1, str "T", List.replicate 200 'a', false, str "TS", str "TS"⟩)
    (by decide) (by decide)

theorem pyTruthy_of_ne (tok : Str) (h : tok ≠ []) : pyTruthy tok = true := by
  cases tok with
  | nil => exact absurd rfl h
  | cons c cs => rfl

theorem search_single (db : DB) (tok : Str) (limit : Nat)
    (h1 : pyStrip tok = tok) (h2 : tok ≠ []) (h3 : queryTokens tok = [tok]) :
    search_notes db tok limit =
      ((db.fts.filter fun r => rowMatchesTok tok r).filterMap fun r =>
        (db.notes.find? fun n => n.id = r.rowid).map (mkSummary db 180)).take limit := by
  simp only [search_notes]
  rw [h1, h3, if_pos (pyTruthy_of_ne tok h2)]
  have hpred : (fun r => [tok].all fun t => rowMatchesTok t r) =
      fun r => rowMatchesTok tok r := by
    funext r
    simp [List.all_cons, List.all_nil, Bool.and_true]
  rw [hpred]

theorem fts_rowid_lt (db : DB) (hInv : Inv db) :
    ∀ r ∈ db.fts, r.rowid < db.nextNoteId := by
  intro r hr
  have hm := (hInv.ftsPerm.mem_iff).mp hr
  obtain ⟨n, hn, rfl⟩ := List.mem_map.mp hm
  exact hInv.notesLt n hn

theorem take_pos_singleton {α : Type} (a : α) (limit : Nat) (h : 1 ≤ limit) :
    ([a].take limit) = [a] := by
  cases limit with
  | zero => omega
  | succ k => simp

theorem find_fresh_note (db : DB) (hInv : Inv db) (m : Note)
    (hid : m.id = db.nextNoteId) :
    ((db.notes ++ [m]).find? fun n => n.id = db.nextNoteId) = some m := by
  rw [List.find?_append]
  have hnone : (db.notes.find? fun n => n.id = db.nextNoteId) = none := by
    rw [List.find?_eq_none]
    intro n hn
    simp only [decide_eq_true_eq]
    have := hInv.notesLt n hn
    omega
  rw [hnone]
  simp [hid]

/-- C1: in every reachable state the notes_fts table is exactly one mirror
row (id, title, content) per notes row, and consequently: after create_note,
searching a single token of the new content that no other row matches
returns exactly the new note; after delete_note of that note the same search
returns nothing; and after update_note replacing the content, the old unique
token (absent from the updated title and content) matches nothing while a
unique token of the new content returns the note. -/
theorem c1_fts_consistency :
    (∀ db, Reachable db → db.fts.Perm (db.notes.map mirror)) ∧
    (∀ (db : DB) (title content : Str) (tags : List Str) (now tok : Str) (limit : Nat),
      Reachable db →
      pyStrip tok = tok → tok ≠ [] → queryTokens tok = [tok] → 1 ≤ limit →
      pyLower tok ∈ ftsTokens content →
      (∀ r ∈ db.fts, rowMatchesTok tok r = false) →
      ∀ db2, create_note db title content tags now = .ok (db2, db.nextNoteId) →
        (search_notes db2 tok limit).map Summary.id = [db.nextNoteId] ∧
        search_notes (delete_note db2 db.nextNoteId) tok limit = [] ∧
        (∀ (t2 c2 : Str) (tags2 : List Str) (now2 tok2 : Str) (db4 : DB),
          update_note db2 db.nextNoteId t2 c2 tags2 now2 = .ok db4 →
          pyLower tok ∉ ftsTokens (pyOrStr (pyStrip t2) (str "Untitled")) →
          pyLower tok ∉ ftsTokens c2 →
          pyStrip tok2 = tok2 → tok2 ≠ [] → queryTokens tok2 = [tok2] →
          pyLower tok2 ∈ ftsTokens c2 →
          (∀ r ∈ db.fts, rowMatchesTok tok2 r = false) →
          search_notes db4 tok limit = [] ∧
          (search_notes db4 tok2 limit).map Summary.id = [db.nextNoteId])) := by
  constructor
  · intro db h
    exact (reachable_inv db h).ftsPerm
  · intro db title content tags now tok limit hReach hs1 hs2 hs3 hlim htokC hold
      db2 hcreate
    have hInv := reachable_inv db hReach
    obtain ⟨db2s, hceq, hnotes2, hfts2, hnn2, -, -, hInv2⟩ :=
      create_note_spec db title content tags now hInv
    rw [hceq] at hcreate
    have hpair := Except.ok.inj hcreate
    have h2eq : db2s = db2 := congrArg Prod.fst hpair
    subst h2eq
    have hmatch_new : rowMatchesTok tok (mirror (storedNote db title content now)) =
        true := by
      unfold rowMatchesTok
      rw [decide_eq_true_eq]
      right
      show pyLower tok ∈ ftsTokens (pyOrStr content [])
      rw [pyOrStr_nil]
      exact htokC
    have hfilter2 : (db2s.fts.filter fun r => rowMatchesTok tok r) =
        [mirror (storedNote db title content now)] := by
      rw [hfts2, List.filter_append]
      have hO : (db.fts.filter fun r => rowMatchesTok tok r) = [] := by
        rw [List.filter_eq_nil_iff]
        intro r hr
        simp [hold r hr]
      rw [hO, List.filter_cons_of_pos hmatch_new, List.filter_nil, List.nil_append]
    have hfind2 : (db2s.notes.find? fun n =>
        n.id = (mirror (storedNote db title content now)).rowid) =
        some (storedNote db title content now) := by
      rw [hnotes2]
      exact find_fresh_note db hInv _ rfl
    have hsearch2 : (search_notes db2s tok limit).map Summary.id =
        [db.nextNoteId] := by
      rw [search_single db2s tok limit hs1 hs2 hs3, hfilter2]
      simp only [List.filterMap_cons, List.filterMap_nil]
      rw [hfind2]
      simp only [Option.map_some']
      rw [take_pos_singleton _ limit hlim]
      rfl
    have hnewgone : ([mirror (storedNote db title content now)].filter
        fun r => r.rowid ≠ db.nextNoteId) = [] := by
      rw [List.filter_cons_of_neg (by simp [mirror, storedNote]), List.filter_nil]
    refine ⟨hsearch2, ?_, ?_⟩
    · rw [search_single _ tok limit hs1 hs2 hs3]
      have hfl : ((delete_note db2s db.nextNoteId).fts.filter
          fun r => rowMatchesTok tok r) = [] := by
        rw [List.filter_eq_nil_iff]
        intro r hr
        have hr2 : r ∈ db2s.fts.filter fun r => r.rowid ≠ db.nextNoteId := hr
        have hr3 : r ∈ db2s.fts := List.mem_of_mem_filter hr2
        rw [hfts2] at hr3
        rcases List.mem_append.mp hr3 with hr4 | hr4
        · simp [hold r hr4]
        · rw [List.mem_singleton] at hr4
          subst hr4
          obtain ⟨-, hbad⟩ := List.mem_filter.mp hr2
          simp [mirror, storedNote] at hbad
      rw [hfl, List.filterMap_nil, List.take_nil]
    · intro t2 c2 tags2 now2 tok2 db4 hupd ht2tok hc2tok hs1b hs2b hs3b htok2C hold2
      have hstored_mem : storedNote db title content now ∈ db2s.notes := by
        rw [hnotes2]
        exact List.mem_append_right _ (List.mem_singleton.mpr rfl)
      obtain ⟨db4s, hueq, hnotes4, hfts4, -, -, -, -⟩ :=
        update_note_spec db2s db.nextNoteId t2 c2 tags2 now2 hInv2
          (storedNote db title content now) hstored_mem rfl
      rw [hueq] at hupd
      have h4eq : db4s = db4 := Except.ok.inj hupd
      subst h4eq
      have hfts2f : (db2s.fts.filter fun r => r.rowid ≠ db.nextNoteId) = db.fts := by
        rw [hfts2, List.filter_append, hnewgone, List.append_nil, List.filter_eq_self]
        intro r hr
        have := fts_rowid_lt db hInv r hr
        simp only [decide_eq_true_eq]
        omega
      rw [hfts2f] at hfts4
      have hctokens : ftsTokens (pyOrStr c2 []) = ftsTokens c2 := by
        rw [pyOrStr_nil]
      have hnomatch_upd : rowMatchesTok tok
          (mirror (updatedNote t2 c2 now2 (storedNote db title content now))) =
          false := by
        unfold rowMatchesTok
        rw [decide_eq_false_iff_not]
        rintro (h | h)
        · exact ht2tok h
        · refine hc2tok ?_
          have h2 : pyLower tok ∈ ftsTokens (pyOrStr c2 []) := h
          rw [hctokens] at h2
          exact h2
      have hmatch2_upd : rowMatchesTok tok2
          (mirror (updatedNote t2 c2 now2 (storedNote db title content now))) =
          true := by
        unfold rowMatchesTok
        rw [decide_eq_true_eq]
        right
        show pyLower tok2 ∈ ftsTokens (pyOrStr c2 [])
        rw [hctokens]
        exact htok2C
      constructor
      · rw [search_single _ tok limit hs1 hs2 hs3]
        have hfl : (db4s.fts.filter fun r => rowMatchesTok tok r) = [] := by
          rw [hfts4, List.filter_append]
          have hO : (db.fts.filter fun r => rowMatchesTok tok r) = [] := by
            rw [List.filter_eq_nil_iff]
            intro r hr
            simp [hold r hr]
          rw [hO, List.filter_cons_of_neg (by simp [hnomatch_upd]), List.filter_nil]
          rfl
        rw [hfl, List.filterMap_nil, List.take_nil]
      · rw [search_single _ tok2 limit hs1b hs2b hs3b]
        have hfl : (db4s.fts.filter fun r => rowMatchesTok tok2 r) =
            [mirror (updatedNote t2 c2 now2 (storedNote db title content now))] := by
          rw [hfts4, List.filter_append]
          have hO : (db.fts.filter fun r => rowMatchesTok tok2 r) = [] := by
            rw [List.filter_eq_nil_iff]
            intro r hr
            simp [hold2 r hr]
          rw [hO, List.filter_cons_of_pos hmatch2_upd, List.filter_nil,
            List.nil_append]
        rw [hfl]
        have hfind4 : (db4s.notes.find? fun n =>
            n.id = (mirror (updatedNote t2 c2 now2
              (storedNote db title content now))).rowid) =
            some (updatedNote t2 c2 now2 (storedNote db title content now)) := by
          rw [hnotes4, hnotes2, List.map_append]
          rw [List.find?_append]
          have hnone : ((db.notes.map fun n => if n.id = db.nextNoteId then
              updatedNote t2 c2 now2 n else n).find? fun n =>
              n.id = (mirror (updatedNote t2 c2 now2
                (storedNote db title content now))).rowid) = none := by
            rw [List.find?_eq_none]
            intro n hn
            obtain ⟨m, hm, rfl⟩ := List.mem_map.mp hn
            simp only [decide_eq_true_eq]
            show (if m.id = db.nextNoteId then updatedNote t2 c2 now2 m else m).id =
              db.nextNoteId → False
            have hlt := hInv.notesLt m hm
            by_cases hc : m.id = db.nextNoteId
            · rw [if_pos hc]
              show m.id = db.nextNoteId → False
              omega
            · rw [if_neg hc]
              omega
          rw [hnone]
          simp only [Option.none_or, List.map_cons, List.map_nil]
          rw [if_pos (show (storedNote db title content now).id = db.nextNoteId from rfl)]
          rw [List.find?_cons_of_pos _ (by simp [updatedNote, storedNote, mirror])]
        simp only [List.filterMap_cons, List.filterMap_nil]
        rw [hfind4]
        simp only [Option.map_some']
        rw [take_pos_singleton _ limit hlim]
        rfl

/-- C1 witness: the index-consistency scenario run concretely from the empty
database (create with content "hello", then delete, then update to "mars"). -/
theorem c1_witness :
    (search_notes (runOps [.create (str "T") (str "hello") [] (str "TS")])
      (str "hello") 50).map Summary.id = [1] ∧
    search_notes (delete_note (runOps [.create (str "T") (str "hello") [] (str "TS")])
      1) (str "hello") 50 = [] ∧
    search_notes (runOps [.create (str "T") (str "hello") [] (str "TS"),
      .update 1 (str "T2") (str "mars") [] (str "TS2")]) (str "hello") 50 = [] ∧
    (search_notes (runOps [.create (str "T") (str "hello") [] (str "TS"),
      .update 1 (str "T2") (str "mars") [] (str "TS2")]) (str "mars") 50).map
      Summary.id = [1] := by
  have h := c1_fts_consistency.2 initDB (str "T") (str "hello") [] (str "TS")
    (str "hello") 50 ⟨[], rfl⟩ (by decide) (by decide) (by decide) (by decide)
    (by decide) (by decide)
    (runOps [.create (str "T") (str "hello") [] (str "TS")]) (by rfl)
  obtain ⟨h1, h2, h3⟩ := h
  have h4 := h3 (str "T2") (str "mars") [] (str "TS2") (str "mars")
    (runOps [.create (str "T") (str "hello") [] (str "TS"),
      .update 1 (str "T2") (str "mars") [] (str "TS2")]) (by rfl)
    (by decide) (by decide) (by decide) (by decide) (by decide) (by decide)
    (by decide)
  exact ⟨h1, h2, h4.1, h4.2⟩

end MintMemo
